import Mathlib

/-!
Verification of the go-stl collections library (package `stl`).

The development shallowly embeds the four core structures the design
document covers — the binary search tree (`bst.go`), the ordered map
(`treemap.go`), the prefix trie (`set.go`, Trie part), and the
adjacency-list graph (`graph.go`) — and settles the frozen claims
about them.  Go pointers to nodes become inductive trees (`nil`
collapsing into the `leaf`/empty constructor), Go maps become
association lists, comparator functions become `Bool`-valued binary
functions, and Go's `(value, ok)` returns become `Option`.
Mutation of a receiver becomes explicit state passing: a Go method
that mutates `bst.Size` while rebuilding the tree is a Lean function
returning the new tree together with the new size.
-/

namespace GoStl

/-! ## Binary search tree (`bst.go`)

`BSTNode` with its `nil` pointers becomes `BTree`; `BST` keeps the
tracked `Size` field and the comparator. -/

inductive BTree (α : Type) where
  | leaf
  | node (left : BTree α) (value : α) (right : BTree α)
deriving Repr, DecidableEq

structure BST (α : Type) where
  root : BTree α
  less : α → α → Bool
  size : Nat

def NewBST (less : α → α → Bool) : BST α :=
  { root := .leaf, less := less, size := 0 }

/-- `insertRecursive` from `bst.go`: the `bst.Size++` performed at the
`nil` case is modelled by threading the size through the call. -/
def insertRec (less : α → α → Bool) : BTree α → α → Nat → BTree α × Nat
  | .leaf, value, sz => (.node .leaf value .leaf, sz + 1)
  | .node l x r, value, sz =>
    if less value x then
      let p := insertRec less l value sz
      (.node p.1 x r, p.2)
    else if less x value then
      let p := insertRec less r value sz
      (.node l x p.1, p.2)
    else
      (.node l x r, sz)

def BST.Insert (b : BST α) (value : α) : BST α :=
  let p := insertRec b.less b.root value b.size
  { b with root := p.1, size := p.2 }

/-- `searchRecursive` returns the node found (a pointer in Go); here the
value stored at that node. -/
def searchRec [DecidableEq α] (less : α → α → Bool) : BTree α → α → Option α
  | .leaf, _ => none
  | .node l x r, value =>
    if x = value then some x
    else if less value x then searchRec less l value
    else searchRec less r value

def BST.Search [DecidableEq α] (b : BST α) (value : α) : Bool :=
  (searchRec b.less b.root value).isSome

/-- `inOrderRecursive` (`bst.go`): appends left run, the node, right run. -/
def BTree.inOrder : BTree α → List α
  | .leaf => []
  | .node l x r => l.inOrder ++ x :: r.inOrder

def BST.InOrder (b : BST α) : List α := b.root.inOrder

def BTree.preOrder : BTree α → List α
  | .leaf => []
  | .node l x r => x :: (l.preOrder ++ r.preOrder)

def BST.PreOrder (b : BST α) : List α := b.root.preOrder

/-- `sizeOf` (`bst.go`): recomputed subtree size. -/
def BTree.count : BTree α → Nat
  | .leaf => 0
  | .node l _ r => 1 + l.count + r.count

/-- `heightRecursive` (`bst.go`): `-1` on the empty tree. -/
def BTree.height : BTree α → Int
  | .leaf => -1
  | .node l _ r => 1 + max l.height r.height

def BST.Height (b : BST α) : Int := b.root.height

/-- Building a tree by a sequence of `Insert` calls
(`NewBSTFromSlice` in `bst.go`). -/
def buildBST (less : α → α → Bool) (items : List α) : BST α :=
  items.foldl BST.Insert (NewBST less)

/-! Proof infrastructure: the classical BST invariant, phrased over the
Boolean comparator. -/

/-- `p` holds at every node of the tree. -/
inductive ForallT (p : α → Prop) : BTree α → Prop
  | leaf : ForallT p .leaf
  | node {l x r} : ForallT p l → p x → ForallT p r → ForallT p (.node l x r)

/-- The search-tree invariant for the comparator `less`. -/
inductive IsBST (less : α → α → Bool) : BTree α → Prop
  | leaf : IsBST less .leaf
  | node {l x r} :
      ForallT (fun y => less y x = true) l →
      ForallT (fun y => less x y = true) r →
      IsBST less l → IsBST less r →
      IsBST less (.node l x r)

theorem ForallT.mem {p : α → Prop} {t : BTree α} (h : ForallT p t) :
    ∀ y ∈ t.inOrder, p y := by
  induction h with
  | leaf => intro y hy; simp [BTree.inOrder] at hy
  | node hl hx hr ihl ihr =>
    intro y hy
    simp only [BTree.inOrder, List.mem_append, List.mem_cons] at hy
    rcases hy with h | h | h
    · exact ihl y h
    · exact h ▸ hx
    · exact ihr y h

theorem ForallT.of_mem {p : α → Prop} {t : BTree α}
    (h : ∀ y ∈ t.inOrder, p y) : ForallT p t := by
  induction t with
  | leaf => exact .leaf
  | node l x r ihl ihr =>
    simp only [BTree.inOrder, List.mem_append, List.mem_cons] at h
    refine .node (ihl ?_) (h x (by tauto)) (ihr ?_)
    · intro y hy; exact h y (by tauto)
    · intro y hy; exact h y (by tauto)

theorem insertRec_forall {less : α → α → Bool} {p : α → Prop} {t : BTree α}
    (ht : ForallT p t) (hv : p v) :
    ForallT p (insertRec less t v sz).1 := by
  induction ht generalizing sz with
  | leaf => exact .node .leaf hv .leaf
  | @node l x r hl hx hr ihl ihr =>
    by_cases h1 : less v x = true
    · simpa [insertRec, h1] using .node (@ihl sz) hx hr
    · by_cases h2 : less x v = true
      · simpa [insertRec, h1, h2] using .node hl hx (@ihr sz)
      · simpa [insertRec, h1, h2] using .node hl hx hr

theorem insertRec_isBST {less : α → α → Bool} {t : BTree α}
    (ht : IsBST less t) (v : α) (sz : Nat) :
    IsBST less (insertRec less t v sz).1 := by
  induction ht generalizing sz with
  | leaf => exact .node .leaf .leaf .leaf .leaf
  | @node l x r hfl hfr hl hr ihl ihr =>
    by_cases h1 : less v x = true
    · simpa [insertRec, h1] using
        .node (insertRec_forall hfl h1) hfr (ihl sz) hr
    · by_cases h2 : less x v = true
      · simpa [insertRec, h1, h2] using
          .node hfl (insertRec_forall hfr h2) hl (ihr sz)
      · simpa [insertRec, h1, h2] using .node hfl hfr hl hr

/-- The tracked size moves in lock step with the node count. -/
theorem insertRec_count (less : α → α → Bool) (t : BTree α) (v : α) (sz : Nat) :
    (insertRec less t v sz).1.count + sz = (insertRec less t v sz).2 + t.count := by
  induction t generalizing sz with
  | leaf => simp [insertRec, BTree.count]; omega
  | node l x r ihl ihr =>
    by_cases h1 : less v x = true
    · have := ihl sz
      simp only [insertRec, if_pos h1, BTree.count]
      omega
    · by_cases h2 : less x v = true
      · have := ihr sz
        simp only [insertRec, if_neg h1, if_pos h2, BTree.count]
        omega
      · simp only [insertRec, if_neg h1, if_neg h2]
        omega

/-- Sortedness of the in-order run of a search tree (strict, hence in
particular non-decreasing). Needs transitivity of the comparator. -/
theorem IsBST.inOrder_pairwise {less : α → α → Bool} {t : BTree α}
    (htr : ∀ a b c, less a b = true → less b c = true → less a c = true)
    (h : IsBST less t) :
    t.inOrder.Pairwise (fun a b => less a b = true) := by
  induction h with
  | leaf => simp [BTree.inOrder]
  | @node l x r hfl hfr _ _ ihl ihr =>
    simp only [BTree.inOrder]
    rw [List.pairwise_append]
    refine ⟨ihl, ?_, ?_⟩
    · rw [List.pairwise_cons]
      exact ⟨hfr.mem, ihr⟩
    · intro a ha b hb
      have hax : less a x = true := hfl.mem a ha
      rcases List.mem_cons.mp hb with rfl | hbr
      · exact hax
      · exact htr a x b hax (hfr.mem b hbr)

/-- Invariants of a tree produced by a sequence of inserts: the search
tree property holds and the tracked size equals the node count. -/
theorem buildBST_invariant (less : α → α → Bool) (items : List α) :
    IsBST less (buildBST less items).root ∧
    (buildBST less items).size = (buildBST less items).root.count ∧
    (buildBST less items).less = less := by
  suffices h : ∀ (b : BST α), IsBST b.less b.root → b.size = b.root.count →
      IsBST (items.foldl BST.Insert b).less (items.foldl BST.Insert b).root ∧
      (items.foldl BST.Insert b).size = (items.foldl BST.Insert b).root.count ∧
      (items.foldl BST.Insert b).less = b.less by
    have hres := h (NewBST less) .leaf rfl
    have hle : (items.foldl BST.Insert (NewBST less)).less = less := hres.2.2
    refine ⟨?_, hres.2.1, hle⟩
    show IsBST less (items.foldl BST.Insert (NewBST less)).root
    nth_rewrite 1 [← hle]
    exact hres.1
  induction items with
  | nil => intro b h1 h2; exact ⟨h1, h2, rfl⟩
  | cons a as ih =>
    intro b h1 h2
    have hins : IsBST (b.Insert a).less (b.Insert a).root :=
      insertRec_isBST h1 a b.size
    have hsz : (b.Insert a).size = (b.Insert a).root.count := by
      have := insertRec_count b.less b.root a b.size
      simp only [BST.Insert] at *
      omega
    simpa [List.foldl_cons] using ih (b.Insert a) hins hsz

theorem inOrder_length_eq_count (t : BTree α) : t.inOrder.length = t.count := by
  induction t with
  | leaf => simp [BTree.inOrder, BTree.count]
  | node l x r ihl ihr => simp [BTree.inOrder, BTree.count, ihl, ihr]; omega

/-- C1. For every sequence of `Insert` calls on a BST whose comparator is
a strict total order, `InOrder()` is non-decreasing under the comparator
and its length equals the tracked `Size` field. -/
theorem bst_inOrder_sorted_and_length
    (less : α → α → Bool)
    (htr : ∀ a b c, less a b = true → less b c = true → less a c = true)
    (hirr : ∀ a, less a a = false)
    (items : List α) :
    ((buildBST less items).InOrder).Chain' (fun a b => less b a = false) ∧
    ((buildBST less items).InOrder).length = (buildBST less items).size := by
  obtain ⟨hbst, hsz, -⟩ := buildBST_invariant less items
  constructor
  · have hp := hbst.inOrder_pairwise htr
    refine List.Pairwise.chain' (hp.imp ?_)
    intro a b hab
    by_cases h : less b a = true
    · have := htr a b a hab h
      rw [hirr a] at this
      exact absurd this (by simp)
    · simpa using h
  · rw [BST.InOrder, inOrder_length_eq_count, hsz]

/-- C1 witness: inserting `[5,3,7,2,4,6,8]` with the natural strict order
on `Nat` yields a non-decreasing in-order run of length equal to the
tracked size. -/
theorem bst_inOrder_sorted_and_length_witness :
    ((buildBST (fun a b : Nat => decide (a < b)) [5,3,7,2,4,6,8]).InOrder).Chain'
      (fun a b => decide (b < a) = false) ∧
    ((buildBST (fun a b : Nat => decide (a < b)) [5,3,7,2,4,6,8]).InOrder).length =
      (buildBST (fun a b : Nat => decide (a < b)) [5,3,7,2,4,6,8]).size :=
  bst_inOrder_sorted_and_length (fun a b : Nat => decide (a < b))
    (by intro a b c h1 h2; simp only [decide_eq_true_eq] at *; omega)
    (by intro a; simp)
    [5,3,7,2,4,6,8]

/-! ## Rank and Select (`bst.go`) -/

/-- `rankRecursive` from `bst.go`: number of values strictly below
`value`, computed through `sizeOf` (`BTree.count`). -/
def rankRec (less : α → α → Bool) : BTree α → α → Int
  | .leaf, _ => 0
  | .node l x r, value =>
    if less value x then rankRec less l value
    else if less x value then 1 + (l.count : Int) + rankRec less r value
    else (l.count : Int)

def BST.Rank (b : BST α) (value : α) : Int := rankRec b.less b.root value

/-- `selectRecursive` from `bst.go`. -/
def selectRec : BTree α → Int → Option α
  | .leaf, _ => none
  | .node l x r, rank =>
    if rank < (l.count : Int) then selectRec l rank
    else if rank > (l.count : Int) then selectRec r (rank - l.count - 1)
    else some x

/-- `Select` from `bst.go`: the out-of-range guard compares against the
tracked `Size` field; `(zero,false)` becomes `none`. -/
def BST.Select (b : BST α) (rank : Int) : Option α :=
  if rank < 0 ∨ (b.size : Int) ≤ rank then none
  else selectRec b.root rank

theorem selectRec_eq_getElem? (t : BTree α) (r : Int)
    (h0 : 0 ≤ r) (hlt : r < (t.count : Int)) :
    selectRec t r = t.inOrder[r.toNat]? := by
  induction t generalizing r with
  | leaf => simp [BTree.count] at hlt; omega
  | node l x rt ihl ihr =>
    have hlen : l.inOrder.length = l.count := inOrder_length_eq_count l
    rw [BTree.count] at hlt
    by_cases h1 : r < (l.count : Int)
    · rw [selectRec, if_pos h1, BTree.inOrder, List.getElem?_append]
      rw [if_pos (by omega), ihl r h0 h1]
    · by_cases h2 : r > (l.count : Int)
      · rw [selectRec, if_neg h1, if_pos h2, BTree.inOrder,
          List.getElem?_append_right (by omega)]
        have hidx : r.toNat - l.inOrder.length = (r.toNat - l.count - 1) + 1 := by
          omega
        rw [hidx, List.getElem?_cons_succ, ihr _ (by omega) (by omega)]
        congr 1
        omega
      · have hr : r = (l.count : Int) := by omega
        rw [selectRec, if_neg h1, if_neg h2, BTree.inOrder,
          List.getElem?_append_right (by omega)]
        have : r.toNat - l.inOrder.length = 0 := by omega
        rw [this, List.getElem?_cons_zero]

theorem selectRec_none (t : BTree α) (r : Int)
    (h : r < 0 ∨ (t.count : Int) ≤ r) : selectRec t r = none := by
  induction t generalizing r with
  | leaf => rfl
  | node l x rt ihl ihr =>
    rw [BTree.count] at h
    by_cases h1 : r < (l.count : Int)
    · rw [selectRec, if_pos h1]
      exact ihl r (by omega)
    · rw [selectRec, if_neg h1, if_pos (by omega)]
      exact ihr _ (by omega)

theorem less_asymm {less : α → α → Bool}
    (hirr : ∀ a, less a a = false)
    (htr : ∀ a b c, less a b = true → less b c = true → less a c = true)
    {a b : α} (hab : less a b = true) : less b a = false := by
  by_contra hc
  have hba : less b a = true := by simpa using hc
  have hcon := htr a b a hab hba
  rw [hirr a] at hcon
  exact absurd hcon (by simp)

theorem rankRec_eq_countP {less : α → α → Bool}
    (hirr : ∀ a, less a a = false)
    (htr : ∀ a b c, less a b = true → less b c = true → less a c = true)
    (htot : ∀ a c, less a c = false → less c a = false → a = c)
    {t : BTree α} (h : IsBST less t) (v : α) :
    rankRec less t v = (t.inOrder.countP (fun y => less y v) : Int) := by
  induction h with
  | leaf => simp [rankRec, BTree.inOrder]
  | @node l x r hfl hfr hl hr ihl ihr =>
    rw [BTree.inOrder, List.countP_append, List.countP_cons]
    by_cases h1 : less v x = true
    · have hx : less x v = false := less_asymm hirr htr h1
      have hr0 : r.inOrder.countP (fun y => less y v) = 0 := by
        rw [List.countP_eq_zero]
        intro y hy
        have hxy := hfr.mem y hy
        intro hyv
        have := htr y v x hyv h1
        rw [less_asymm hirr htr hxy] at this
        exact absurd this (by simp)
      rw [rankRec, if_pos h1, ihl, hr0, hx]
      simp
    · by_cases h2 : less x v = true
      · have hleft : l.inOrder.countP (fun y => less y v) = l.inOrder.length := by
          rw [List.countP_eq_length]
          intro y hy
          exact htr y x v (hfl.mem y hy) h2
        rw [rankRec, if_neg h1, if_pos h2, ihr, hleft, h2,
          inOrder_length_eq_count]
        simp only [if_true]
        push_cast
        ring
      · have h1' : less v x = false := by simpa using h1
        have h2' : less x v = false := by simpa using h2
        obtain rfl := htot v x h1' h2'
        have hleft : l.inOrder.countP (fun y => less y v) = l.inOrder.length := by
          rw [List.countP_eq_length]
          intro y hy
          exact hfl.mem y hy
        have hr0 : r.inOrder.countP (fun y => less y v) = 0 := by
          rw [List.countP_eq_zero]
          intro y hy
          rw [less_asymm hirr htr (hfr.mem y hy)]
          simp
        rw [rankRec, if_neg h1, if_neg h2, hleft, hr0, hirr,
          inOrder_length_eq_count]
        simp

theorem countP_of_getElem? {less : α → α → Bool}
    (hirr : ∀ a, less a a = false)
    (htr : ∀ a b c, less a b = true → less b c = true → less a c = true)
    {l : List α} (hp : l.Pairwise (fun a b => less a b = true))
    {n : Nat} {v : α} (h : l[n]? = some v) :
    l.countP (fun y => less y v) = n := by
  induction l generalizing n with
  | nil => simp at h
  | cons a tl ih =>
    rw [List.pairwise_cons] at hp
    cases n with
    | zero =>
      rw [List.getElem?_cons_zero, Option.some_inj] at h
      subst h
      rw [List.countP_cons, hirr]
      have h0 : tl.countP (fun y => less y a) = 0 := by
        rw [List.countP_eq_zero]
        intro y hy
        rw [less_asymm hirr htr (hp.1 y hy)]
        simp
      rw [h0]
      simp
    | succ n =>
      rw [List.getElem?_cons_succ] at h
      have hv : v ∈ tl := by
        obtain ⟨hn, he⟩ := List.getElem?_eq_some.mp h
        exact he ▸ List.getElem_mem hn
      rw [List.countP_cons, hp.1 v hv, ih hp.2 h]
      simp

theorem getElem?_countP_of_mem {less : α → α → Bool}
    (hirr : ∀ a, less a a = false)
    (htr : ∀ a b c, less a b = true → less b c = true → less a c = true)
    {l : List α} (hp : l.Pairwise (fun a b => less a b = true))
    {v : α} (hv : v ∈ l) :
    l[l.countP (fun y => less y v)]? = some v := by
  induction l with
  | nil => simp at hv
  | cons a tl ih =>
    rw [List.pairwise_cons] at hp
    rcases List.mem_cons.mp hv with rfl | hv'
    · have h0 : tl.countP (fun y => less y v) = 0 := by
        rw [List.countP_eq_zero]
        intro y hy
        rw [less_asymm hirr htr (hp.1 y hy)]
        simp
      rw [List.countP_cons, hirr, h0]
      simp
    · have ha : less a v = true := hp.1 v hv'
      rw [List.countP_cons, ha, if_pos rfl, List.getElem?_cons_succ]
      exact ih hp.2 hv'

/-- C6. On a BST built by inserts under a strict total order:
`Rank (Select r) = r` for every rank in `[0, Size)`,
`Select (Rank v) = v` for every value present in the tree, and `Select`
reports not-found exactly for ranks outside `[0, Size)`. -/
theorem bst_rank_select (less : α → α → Bool)
    (hirr : ∀ a, less a a = false)
    (htr : ∀ a b c, less a b = true → less b c = true → less a c = true)
    (htot : ∀ a c, less a c = false → less c a = false → a = c)
    (items : List α) :
    (∀ r : Int, 0 ≤ r → r < ((buildBST less items).size : Int) →
      ∃ v, (buildBST less items).Select r = some v ∧
        (buildBST less items).Rank v = r) ∧
    (∀ v ∈ (buildBST less items).InOrder,
      (buildBST less items).Select ((buildBST less items).Rank v) = some v) ∧
    (∀ r : Int, ((buildBST less items).Select r).isSome = true ↔
      (0 ≤ r ∧ r < ((buildBST less items).size : Int))) := by
  obtain ⟨hbst, hsz, hle⟩ := buildBST_invariant less items
  have hp := hbst.inOrder_pairwise htr
  have hlen := inOrder_length_eq_count (buildBST less items).root
  refine ⟨?_, ?_, ?_⟩
  · intro r h0 hlt
    have hsel : (buildBST less items).Select r =
        (buildBST less items).root.inOrder[r.toNat]? := by
      rw [BST.Select, if_neg (by omega), selectRec_eq_getElem? _ r h0 (by omega)]
    have hidx : r.toNat < (buildBST less items).root.inOrder.length := by omega
    refine ⟨(buildBST less items).root.inOrder[r.toNat], ?_, ?_⟩
    · rw [hsel, List.getElem?_eq_getElem hidx]
    · rw [BST.Rank, hle, rankRec_eq_countP hirr htr htot hbst,
        countP_of_getElem? hirr htr hp (List.getElem?_eq_getElem hidx)]
      omega
  · intro v hv
    have hrank : (buildBST less items).Rank v =
        ((buildBST less items).root.inOrder.countP (fun y => less y v) : Int) := by
      rw [BST.Rank, hle, rankRec_eq_countP hirr htr htot hbst]
    have hget := getElem?_countP_of_mem hirr htr hp hv
    have hidx : (buildBST less items).root.inOrder.countP (fun y => less y v) <
        (buildBST less items).root.inOrder.length :=
      (List.getElem?_eq_some.mp hget).1
    rw [hrank, BST.Select, if_neg (by omega),
      selectRec_eq_getElem? _ _ (by omega) (by omega)]
    simpa using hget
  · intro r
    constructor
    · intro hs
      by_cases hb : r < 0 ∨ ((buildBST less items).size : Int) ≤ r
      · rw [BST.Select, if_pos hb] at hs
        simp at hs
      · omega
    · intro ⟨h0, hlt⟩
      rw [BST.Select, if_neg (by omega), selectRec_eq_getElem? _ r h0 (by omega)]
      have hidx : r.toNat < (buildBST less items).root.inOrder.length := by omega
      rw [List.getElem?_eq_getElem hidx]
      rfl

/-- C6 witness at the tree built from `[2,1,3]` and rank `1`. -/
theorem bst_rank_select_witness :
    ∃ v, (buildBST (fun a b : Nat => decide (a < b)) [2,1,3]).Select 1 = some v ∧
      (buildBST (fun a b : Nat => decide (a < b)) [2,1,3]).Rank v = 1 :=
  (bst_rank_select (fun a b : Nat => decide (a < b))
    (by intro a; simp)
    (by intro a b c h1 h2; simp only [decide_eq_true_eq] at *; omega)
    (by intro a c h1 h2; simp only [decide_eq_false_iff_not] at h1 h2; omega)
    [2,1,3]).1 1 (by decide) (by decide)

/-! ## Clone (`bst.go`)

`cloneRecursive` re-inserts the original's values into a fresh tree in
in-order (sorted) order. -/

def cloneRec : BTree α → BST α → BST α
  | .leaf, acc => acc
  | .node l x r, acc => cloneRec r ((cloneRec l acc).Insert x)

def BST.Clone (b : BST α) : BST α := cloneRec b.root (NewBST b.less)

/-- C8 counterexample: on the tree built from `[2,1,3]` the clone's
pre-order differs from the original's, so `Clone` is not a structural
(shape-preserving) copy. -/
theorem bst_clone_not_structural_counterexample :
    ((buildBST (fun a b : Nat => decide (a < b)) [2,1,3]).Clone).PreOrder = [1,2,3] ∧
    (buildBST (fun a b : Nat => decide (a < b)) [2,1,3]).PreOrder = [2,1,3] ∧
    ((buildBST (fun a b : Nat => decide (a < b)) [2,1,3]).Clone).PreOrder ≠
      (buildBST (fun a b : Nat => decide (a < b)) [2,1,3]).PreOrder := by
  refine ⟨by decide, by decide, by decide⟩

/-- Inserting a value strictly above everything in the tree appends it to
the in-order run and always increments the size. -/
theorem insertRec_append {less : α → α → Bool}
    (hirr : ∀ a, less a a = false)
    (htr : ∀ a b c, less a b = true → less b c = true → less a c = true)
    {t : BTree α} {b : α} (hall : ∀ y ∈ t.inOrder, less y b = true) (sz : Nat) :
    (insertRec less t b sz).1.inOrder = t.inOrder ++ [b] ∧
    (insertRec less t b sz).2 = sz + 1 := by
  induction t generalizing sz with
  | leaf => simp [insertRec, BTree.inOrder]
  | node l x r ihl ihr =>
    have hx : less x b = true := hall x (by simp [BTree.inOrder])
    have hbx : less b x = false := less_asymm hirr htr hx
    have hr := ihr (fun y hy => hall y (by simp [BTree.inOrder, hy])) sz
    rw [insertRec, if_neg (by simp [hbx]), if_pos hx]
    simp only [BTree.inOrder, hr.1, hr.2]
    simp

/-- `cloneRecursive` walks the subtree in-order, inserting each value
into the accumulator; on a sorted subtree lying strictly above the
accumulator it appends the subtree's run. -/
theorem cloneRec_spec {less : α → α → Bool}
    (hirr : ∀ a, less a a = false)
    (htr : ∀ a b c, less a b = true → less b c = true → less a c = true)
    (t : BTree α) (acc : BST α)
    (hp : t.inOrder.Pairwise (fun a b => less a b = true))
    (hcross : ∀ a ∈ acc.root.inOrder, ∀ y ∈ t.inOrder, less a y = true)
    (hle : acc.less = less) :
    (cloneRec t acc).root.inOrder = acc.root.inOrder ++ t.inOrder ∧
    (cloneRec t acc).size = acc.size + t.count ∧
    (cloneRec t acc).less = less := by
  induction t generalizing acc with
  | leaf => simp [cloneRec, BTree.inOrder, BTree.count, hle]
  | node l x r ihl ihr =>
    rw [BTree.inOrder, List.pairwise_append, List.pairwise_cons] at hp
    obtain ⟨hpl, ⟨hxr, hpr⟩, hlr⟩ := hp
    have h1 := ihl acc hpl
      (fun a ha y hy => hcross a ha y (by simp [BTree.inOrder, hy])) hle
    set acc1 := cloneRec l acc with hacc1
    have hall : ∀ y ∈ acc1.root.inOrder, less y x = true := by
      intro y hy
      rw [h1.1, List.mem_append] at hy
      rcases hy with hy | hy
      · exact hcross y hy x (by simp [BTree.inOrder])
      · exact hlr y hy x (by simp)
    have h2 := insertRec_append hirr htr (t := acc1.root) (b := x) hall acc1.size
    have hins1 : (acc1.Insert x).root.inOrder = acc.root.inOrder ++ l.inOrder ++ [x] := by
      rw [BST.Insert, h1.2.2, h2.1, h1.1]
    have hins2 : (acc1.Insert x).size = acc.size + l.count + 1 := by
      rw [BST.Insert, h1.2.2, h2.2, h1.2.1]
    have hins3 : (acc1.Insert x).less = less := h1.2.2
    have h3 := ihr (acc1.Insert x) hpr ?_ hins3
    · refine ⟨?_, ?_, h3.2.2⟩
      · rw [cloneRec, ← hacc1, h3.1, hins1, BTree.inOrder]
        simp
      · rw [cloneRec, ← hacc1, h3.2.1, hins2, BTree.count]
        omega
    · intro a ha y hy
      rw [hins1, List.mem_append, List.mem_append] at ha
      rcases ha with (ha | ha) | ha
      · exact hcross a ha y (by simp [BTree.inOrder, hy])
      · exact hlr a ha y (by simp [hy])
      · rw [List.mem_singleton] at ha
        subst ha
        exact hxr y hy

/-- C8 amended. `Clone` of a BST built by inserts under a strict total
order preserves the sorted element sequence and the size — but not the
shape (see the counterexample). -/
theorem bst_clone_preserves_inorder_size (less : α → α → Bool)
    (hirr : ∀ a, less a a = false)
    (htr : ∀ a b c, less a b = true → less b c = true → less a c = true)
    (items : List α) :
    ((buildBST less items).Clone).InOrder = (buildBST less items).InOrder ∧
    ((buildBST less items).Clone).size = (buildBST less items).size := by
  obtain ⟨hbst, hsz, hle⟩ := buildBST_invariant less items
  have hp := hbst.inOrder_pairwise htr
  have h := cloneRec_spec hirr htr (buildBST less items).root
    (NewBST (buildBST less items).less) hp
    (by intro a ha; simp [NewBST, BTree.inOrder] at ha)
    (by rw [NewBST, hle])
  refine ⟨?_, ?_⟩
  · rw [BST.InOrder, BST.InOrder, BST.Clone, h.1]
    simp [NewBST, BTree.inOrder]
  · rw [BST.Clone, h.2.1]
    simp [NewBST, hsz]

/-- C8 amended witness at the tree built from `[2,1,3]`. -/
theorem bst_clone_preserves_inorder_size_witness :
    ((buildBST (fun a b : Nat => decide (a < b)) [2,1,3]).Clone).InOrder =
      (buildBST (fun a b : Nat => decide (a < b)) [2,1,3]).InOrder ∧
    ((buildBST (fun a b : Nat => decide (a < b)) [2,1,3]).Clone).size =
      (buildBST (fun a b : Nat => decide (a < b)) [2,1,3]).size :=
  bst_clone_preserves_inorder_size (fun a b : Nat => decide (a < b))
    (by intro a; simp)
    (by intro a b c h1 h2; simp only [decide_eq_true_eq] at *; omega)
    [2,1,3]

/-! ## Ordered map (`treemap.go`) -/

inductive TMTree (κ ν : Type) where
  | leaf
  | node (left : TMTree κ ν) (key : κ) (value : ν) (right : TMTree κ ν)
deriving Repr

structure TreeMap (κ ν : Type) where
  root : TMTree κ ν
  size : Nat
  less : κ → κ → Bool

/-- `putRecursive` from `treemap.go`: on an equal key the stored value is
overwritten; `tm.size++` happens only at the `nil` case. -/
def putRec (less : κ → κ → Bool) : TMTree κ ν → κ → ν → Nat → TMTree κ ν × Nat
  | .leaf, key, value, sz => (.node .leaf key value .leaf, sz + 1)
  | .node l k w r, key, value, sz =>
    if less key k then
      let p := putRec less l key value sz
      (.node p.1 k w r, p.2)
    else if less k key then
      let p := putRec less r key value sz
      (.node l k w p.1, p.2)
    else
      (.node l k value r, sz)

def NewTreeMap (less : κ → κ → Bool) : TreeMap κ ν :=
  { root := .leaf, size := 0, less := less }

/-- A concrete empty `Nat → Nat` TreeMap under the natural order, used by
witnesses. -/
def NewTreeMapN : TreeMap Nat Nat := NewTreeMap (fun a b => decide (a < b))

def TreeMap.Put (tm : TreeMap κ ν) (key : κ) (value : ν) : TreeMap κ ν :=
  let p := putRec tm.less tm.root key value tm.size
  { tm with root := p.1, size := p.2 }

/-- `getNode` from `treemap.go`, returning the found node's key/value pair. -/
def getNode (less : κ → κ → Bool) : TMTree κ ν → κ → Option (κ × ν)
  | .leaf, _ => none
  | .node l k w r, key =>
    if less key k then getNode less l key
    else if less k key then getNode less r key
    else some (k, w)

def TreeMap.Get (tm : TreeMap κ ν) (key : κ) : Option ν :=
  (getNode tm.less tm.root key).map Prod.snd

/-- The structural skeleton of a `TreeMap` tree: shape and keys, with the
stored values erased.  Put-on-existing-key must leave it unchanged. -/
def TMTree.keyShape : TMTree κ ν → BTree κ
  | .leaf => .leaf
  | .node l k _ r => .node l.keyShape k r.keyShape

theorem putRec_of_found {less : κ → κ → Bool} {t : TMTree κ ν} {key : κ}
    (h : (getNode less t key).isSome = true) (value : ν) (sz : Nat) :
    (putRec less t key value sz).1.keyShape = t.keyShape ∧
    (putRec less t key value sz).2 = sz := by
  induction t generalizing sz with
  | leaf => simp [getNode] at h
  | node l k w r ihl ihr =>
    by_cases h1 : less key k = true
    · rw [getNode, if_pos h1] at h
      have := ihl h sz
      simp only [putRec, if_pos h1, TMTree.keyShape]
      exact ⟨by rw [this.1], this.2⟩
    · by_cases h2 : less k key = true
      · rw [getNode, if_neg h1, if_pos h2] at h
        have := ihr h sz
        simp only [putRec, if_neg h1, if_pos h2, TMTree.keyShape]
        exact ⟨by rw [this.1], this.2⟩
      · simp [putRec, if_neg h1, if_neg h2, TMTree.keyShape]

theorem getNode_putRec {less : κ → κ → Bool}
    (hirr : ∀ a, less a a = false) (t : TMTree κ ν) (key : κ) (value : ν)
    (sz : Nat) :
    ∃ k, getNode less (putRec less t key value sz).1 key = some (k, value) := by
  induction t generalizing sz with
  | leaf =>
    refine ⟨key, ?_⟩
    simp [putRec, getNode, hirr key]
  | node l k w r ihl ihr =>
    by_cases h1 : less key k = true
    · obtain ⟨k', hk'⟩ := ihl sz
      refine ⟨k', ?_⟩
      simp only [putRec, if_pos h1]
      rw [getNode, if_pos h1]
      exact hk'
    · by_cases h2 : less k key = true
      · obtain ⟨k', hk'⟩ := ihr sz
        refine ⟨k', ?_⟩
        simp only [putRec, if_neg h1, if_pos h2]
        rw [getNode, if_neg h1, if_pos h2]
        exact hk'
      · refine ⟨k, ?_⟩
        simp only [putRec, if_neg h1, if_neg h2]
        rw [getNode, if_neg h1, if_neg h2]

/-- A found value makes `insertRecursive` return the tree and size
unchanged (the duplicate-drop branch of `bst.go`). -/
theorem insertRec_of_found [DecidableEq α] {less : α → α → Bool}
    (hirr : ∀ a, less a a = false)
    (htot : ∀ a c, less a c = false → less c a = false → a = c)
    {t : BTree α} {v : α}
    (h : (searchRec less t v).isSome = true) (sz : Nat) :
    insertRec less t v sz = (t, sz) := by
  induction t generalizing sz with
  | leaf => simp [searchRec] at h
  | node l x r ihl ihr =>
    by_cases hx : x = v
    · subst hx
      simp [insertRec, hirr x]
    · rw [searchRec, if_neg hx] at h
      by_cases h1 : less v x = true
      · rw [if_pos h1] at h
        simp only [insertRec, if_pos h1, ihl h sz]
      · rw [if_neg h1] at h
        by_cases h2 : less x v = true
        · simp only [insertRec, if_neg h1, if_pos h2, ihr h sz]
        · exact absurd (htot x v (by simpa using h2) (by simpa using h1)) hx

/-- C5. Inserting an already-present value into a BST is a no-op (tree,
size and comparator all unchanged), while `Put` on a `TreeMap` with an
existing key keeps the key skeleton and size unchanged and makes `Get`
return the new value. -/
theorem bst_dup_noop_treemap_update {α κ ν : Type} [DecidableEq α]
    (b : BST α) (v : α)
    (hirr : ∀ a, b.less a a = false)
    (htot : ∀ a c, b.less a c = false → b.less c a = false → a = c)
    (hs : b.Search v = true)
    (tm : TreeMap κ ν) (key : κ) (value : ν)
    (hirrK : ∀ a, tm.less a a = false)
    (hk : (getNode tm.less tm.root key).isSome = true) :
    b.Insert v = b ∧
    (tm.Put key value).root.keyShape = tm.root.keyShape ∧
    (tm.Put key value).size = tm.size ∧
    (tm.Put key value).Get key = some value := by
  refine ⟨?_, ?_, ?_, ?_⟩
  · have hnoop := insertRec_of_found hirr htot hs b.size
    obtain ⟨root, less, size⟩ := b
    simp only [BST.Insert, hnoop]
  · exact (putRec_of_found hk value tm.size).1
  · exact (putRec_of_found hk value tm.size).2
  · obtain ⟨k', hk'⟩ := getNode_putRec hirrK tm.root key value tm.size
    simp only [TreeMap.Get, TreeMap.Put, hk']
    rfl

/-- C5 witness at a concrete BST `{2,1,3}` and TreeMap `{1↦10, 2↦20}`. -/
theorem bst_dup_noop_treemap_update_witness :
    (buildBST (fun a b : Nat => decide (a < b)) [2,1,3]).Insert 1 =
      buildBST (fun a b : Nat => decide (a < b)) [2,1,3] ∧
    (((NewTreeMapN.Put 1 10).Put 2 20).Put 1 99).root.keyShape =
      ((NewTreeMapN.Put 1 10).Put 2 20).root.keyShape ∧
    (((NewTreeMapN.Put 1 10).Put 2 20).Put 1 99).size =
      ((NewTreeMapN.Put 1 10).Put 2 20).size ∧
    (((NewTreeMapN.Put 1 10).Put 2 20).Put 1 99).Get 1 = some 99 :=
  bst_dup_noop_treemap_update
    (buildBST (fun a b : Nat => decide (a < b)) [2,1,3]) 1
    (by intro a; show decide (a < a) = false; simp)
    (by intro a c h1 h2
        have h1' : decide (a < c) = false := h1
        have h2' : decide (c < a) = false := h2
        simp only [decide_eq_false_iff_not] at h1' h2'
        omega)
    (by decide)
    ((NewTreeMapN.Put 1 10).Put 2 20) 1 99
    (by intro a; show decide (a < a) = false; simp)
    (by decide)

/-! ## Trie (`set.go`, Trie part)

`TrieNode`'s `map[rune]*TrieNode` becomes an association list with
unique keys; words are lists of characters.  (`Insert` iterates a word
by `range` and `deleteRecursive` by integer indexing; over the
character-sequence model these are the same walk, exact for single-byte
characters.)  The optional associated value and the word counter play
no role in the claims and are omitted.
-/

inductive GTrie where
  | mk (children : List (Char × GTrie)) (isEnd : Bool)

/-- `current.children[char]` map lookup. -/
def lookupChild : List (Char × GTrie) → Char → Option GTrie
  | [], _ => none
  | (c, t) :: rest, d => if c = d then some t else lookupChild rest d

/-- `current.children[char] = node` map assignment. -/
def updateChild : List (Char × GTrie) → Char → GTrie → List (Char × GTrie)
  | [], d, u => [(d, u)]
  | (c, t) :: rest, d, u =>
    if c = d then (d, u) :: rest else (c, t) :: updateChild rest d u

/-- `delete(node.children, char)` map deletion. -/
def eraseChild : List (Char × GTrie) → Char → List (Char × GTrie)
  | [], _ => []
  | (c, t) :: rest, d =>
    if c = d then eraseChild rest d else (c, t) :: eraseChild rest d

/-- `NewTrie`'s root node. -/
def NewTrieRoot : GTrie := .mk [] false

/-- `Insert`/`InsertWithValue` from `set.go`: walks the word, creating a
fresh child where the map has none, and marks the final node. -/
def GTrie.insertW : GTrie → List Char → GTrie
  | .mk ch _, [] => .mk ch true
  | .mk ch e, c :: cs =>
    let child := (lookupChild ch c).getD (.mk [] false)
    .mk (updateChild ch c (child.insertW cs)) e

/-- `searchNode` from `set.go`. -/
def GTrie.searchNode : GTrie → List Char → Option GTrie
  | t, [] => some t
  | .mk ch _, c :: cs =>
    match lookupChild ch c with
    | none => none
    | some child => child.searchNode cs

/-- `Search` from `set.go`: node found and end-marked. -/
def GTrie.search (t : GTrie) (w : List Char) : Bool :=
  match t.searchNode w with
  | none => false
  | some (.mk _ e) => e

/-- `deleteRecursive` from `set.go`: returns the rewritten node together
with the boolean the function propagates (`len(node.children) == 0`
style prune flags — this is also the value `Delete` itself returns). -/
def GTrie.deleteRec : GTrie → List Char → GTrie × Bool
  | .mk ch e, [] =>
    if e then (.mk ch false, ch.isEmpty) else (.mk ch e, false)
  | .mk ch e, c :: cs =>
    match lookupChild ch c with
    | none => (.mk ch e, false)
    | some child =>
      let p := child.deleteRec cs
      if p.2 then
        let ch' := eraseChild ch c
        (.mk ch' e, !e && ch'.isEmpty)
      else
        (.mk (updateChild ch c p.1) e, false)

/-- `NewTrieFromSlice`: building a trie by a sequence of inserts. -/
def buildTrie (ws : List (List Char)) : GTrie :=
  ws.foldl GTrie.insertW NewTrieRoot

theorem search_nil (ch : List (Char × GTrie)) (e : Bool) :
    (GTrie.mk ch e).search [] = e := rfl

theorem search_cons_none {ch : List (Char × GTrie)} (e : Bool) {c : Char}
    (cs : List Char) (hl : lookupChild ch c = none) :
    (GTrie.mk ch e).search (c :: cs) = false := by
  simp [GTrie.search, GTrie.searchNode, hl]

theorem search_cons_some {ch : List (Char × GTrie)} (e : Bool) {c : Char}
    {child : GTrie} (cs : List Char) (hl : lookupChild ch c = some child) :
    (GTrie.mk ch e).search (c :: cs) = child.search cs := by
  simp only [GTrie.search, GTrie.searchNode, hl]

theorem search_empty_root (w : List Char) :
    (GTrie.mk [] false).search w = false := by
  cases w with
  | nil => rfl
  | cons c cs => exact search_cons_none false cs rfl

theorem insertW_cons (ch : List (Char × GTrie)) (e : Bool) (c : Char)
    (cs : List Char) :
    (GTrie.mk ch e).insertW (c :: cs) =
      .mk (updateChild ch c
        (((lookupChild ch c).getD (.mk [] false)).insertW cs)) e := rfl

theorem deleteRec_cons_none {ch : List (Char × GTrie)} (e : Bool) {c : Char}
    (cs : List Char) (hl : lookupChild ch c = none) :
    (GTrie.mk ch e).deleteRec (c :: cs) = (.mk ch e, false) := by
  simp [GTrie.deleteRec, hl]

theorem deleteRec_cons_prune {ch : List (Char × GTrie)} (e : Bool) {c : Char}
    {child : GTrie} (cs : List Char) (hl : lookupChild ch c = some child)
    (hp : (child.deleteRec cs).2 = true) :
    (GTrie.mk ch e).deleteRec (c :: cs) =
      (.mk (eraseChild ch c) e, !e && (eraseChild ch c).isEmpty) := by
  simp [GTrie.deleteRec, hl, hp]

theorem deleteRec_cons_keep {ch : List (Char × GTrie)} (e : Bool) {c : Char}
    {child : GTrie} (cs : List Char) (hl : lookupChild ch c = some child)
    (hp : (child.deleteRec cs).2 = false) :
    (GTrie.mk ch e).deleteRec (c :: cs) =
      (.mk (updateChild ch c (child.deleteRec cs).1) e, false) := by
  simp [GTrie.deleteRec, hl, hp]

theorem lookupChild_updateChild_self (ch : List (Char × GTrie)) (c : Char)
    (u : GTrie) : lookupChild (updateChild ch c u) c = some u := by
  induction ch with
  | nil => simp [updateChild, lookupChild]
  | cons p rest ih =>
    obtain ⟨d, t⟩ := p
    by_cases h : d = c
    · subst h; simp [updateChild, lookupChild]
    · simp [updateChild, lookupChild, h, ih]

theorem lookupChild_updateChild_ne (ch : List (Char × GTrie)) {c d : Char}
    (u : GTrie) (h : c ≠ d) :
    lookupChild (updateChild ch c u) d = lookupChild ch d := by
  induction ch with
  | nil => simp [updateChild, lookupChild, h]
  | cons p rest ih =>
    obtain ⟨a, t⟩ := p
    by_cases ha : a = c
    · subst ha
      simp [updateChild, lookupChild, h]
    · simp [updateChild, lookupChild, ha, ih]

theorem lookupChild_eraseChild_self (ch : List (Char × GTrie)) (c : Char) :
    lookupChild (eraseChild ch c) c = none := by
  induction ch with
  | nil => simp [eraseChild, lookupChild]
  | cons p rest ih =>
    obtain ⟨a, t⟩ := p
    by_cases ha : a = c
    · subst ha; simp [eraseChild, ih]
    · simp [eraseChild, lookupChild, ha, ih]

theorem lookupChild_eraseChild_ne (ch : List (Char × GTrie)) {c d : Char}
    (h : c ≠ d) :
    lookupChild (eraseChild ch c) d = lookupChild ch d := by
  induction ch with
  | nil => simp [eraseChild]
  | cons p rest ih =>
    obtain ⟨a, t⟩ := p
    by_cases ha : a = c
    · subst ha
      rw [eraseChild, if_pos rfl, ih, lookupChild, if_neg h]
    · rw [eraseChild, if_neg ha, lookupChild, lookupChild]
      by_cases had : a = d
      · rw [if_pos had, if_pos had]
      · rw [if_neg had, if_neg had, ih]

theorem search_insert_self (t : GTrie) (v : List Char) :
    (t.insertW v).search v = true := by
  induction v generalizing t with
  | nil => obtain ⟨ch, e⟩ := t; rfl
  | cons c cs ih =>
    obtain ⟨ch, e⟩ := t
    rw [insertW_cons,
      search_cons_some e cs (lookupChild_updateChild_self ch c _)]
    exact ih _

theorem search_insert_ne (t : GTrie) {v u : List Char} (h : u ≠ v) :
    (t.insertW v).search u = t.search u := by
  induction v generalizing t u with
  | nil =>
    obtain ⟨ch, e⟩ := t
    cases u with
    | nil => exact absurd rfl h
    | cons d ds =>
      show (GTrie.mk ch true).search (d :: ds) = (GTrie.mk ch e).search (d :: ds)
      cases hl : lookupChild ch d with
      | none => rw [search_cons_none true ds hl, search_cons_none e ds hl]
      | some child => rw [search_cons_some true ds hl, search_cons_some e ds hl]
  | cons c cs ih =>
    obtain ⟨ch, e⟩ := t
    cases u with
    | nil => rfl
    | cons d ds =>
      rw [insertW_cons]
      by_cases hdc : d = c
      · subst hdc
        have hds : ds ≠ cs := by intro hh; exact h (by rw [hh])
        rw [search_cons_some e ds (lookupChild_updateChild_self ch d _),
          ih _ hds]
        cases hl : lookupChild ch d with
        | none =>
          rw [search_cons_none e ds hl]
          exact search_empty_root ds
        | some child =>
          rw [search_cons_some e ds hl]
          rfl
      · have hne : c ≠ d := fun hh => hdc hh.symm
        cases hl : lookupChild ch d with
        | none =>
          rw [search_cons_none e ds
              ((lookupChild_updateChild_ne ch _ hne).trans hl),
            search_cons_none e ds hl]
        | some child =>
          rw [search_cons_some e ds
              ((lookupChild_updateChild_ne ch _ hne).trans hl),
            search_cons_some e ds hl]

/-- A subtree whose prune flag comes back `true` has been rewritten to a
bare unmarked node. -/
theorem deleteRec_nil_end (ch : List (Char × GTrie)) :
    (GTrie.mk ch true).deleteRec [] = (.mk ch false, ch.isEmpty) := rfl

theorem deleteRec_nil_noend (ch : List (Char × GTrie)) :
    (GTrie.mk ch false).deleteRec [] = (.mk ch false, false) := rfl

/-- A subtree whose prune flag comes back `true` has been rewritten to a
bare unmarked node. -/
theorem deleteRec_prune (t : GTrie) (w : List Char)
    (h : (t.deleteRec w).2 = true) : (t.deleteRec w).1 = .mk [] false := by
  cases w with
  | nil =>
    obtain ⟨ch, e⟩ := t
    cases e with
    | false => rw [deleteRec_nil_noend] at h; simp at h
    | true =>
      rw [deleteRec_nil_end] at h ⊢
      simp only at h
      rw [List.isEmpty_iff] at h
      rw [h]
  | cons c cs =>
    obtain ⟨ch, e⟩ := t
    cases hl : lookupChild ch c with
    | none => rw [deleteRec_cons_none e cs hl] at h; simp at h
    | some child =>
      by_cases hp : (child.deleteRec cs).2 = true
      · rw [deleteRec_cons_prune e cs hl hp] at h ⊢
        simp only [Bool.and_eq_true, Bool.not_eq_true'] at h
        rw [List.isEmpty_iff] at h
        rw [h.2, h.1]
      · rw [Bool.not_eq_true] at hp
        rw [deleteRec_cons_keep e cs hl hp] at h
        simp at h

/-- After `deleteRecursive`, the deleted word no longer searches true. -/
theorem search_deleteRec_self (t : GTrie) (w : List Char) :
    (t.deleteRec w).1.search w = false := by
  induction w generalizing t with
  | nil =>
    obtain ⟨ch, e⟩ := t
    cases e with
    | false => rw [deleteRec_nil_noend]; rfl
    | true => rw [deleteRec_nil_end]; rfl
  | cons c cs ih =>
    obtain ⟨ch, e⟩ := t
    cases hl : lookupChild ch c with
    | none =>
      rw [deleteRec_cons_none e cs hl]
      exact search_cons_none e cs hl
    | some child =>
      by_cases hp : (child.deleteRec cs).2 = true
      · rw [deleteRec_cons_prune e cs hl hp]
        exact search_cons_none e cs (lookupChild_eraseChild_self ch c)
      · rw [Bool.not_eq_true] at hp
        rw [deleteRec_cons_keep e cs hl hp,
          search_cons_some e cs (lookupChild_updateChild_self ch c _)]
        exact ih child

/-- `deleteRecursive` leaves every other word's search result unchanged. -/
theorem search_deleteRec_ne (t : GTrie) {w u : List Char} (h : u ≠ w) :
    (t.deleteRec w).1.search u = t.search u := by
  induction w generalizing t u with
  | nil =>
    obtain ⟨ch, e⟩ := t
    cases u with
    | nil => exact absurd rfl h
    | cons d ds =>
      cases e with
      | false => rw [deleteRec_nil_noend]
      | true =>
        rw [deleteRec_nil_end]
        cases hl : lookupChild ch d with
        | none => rw [search_cons_none false ds hl, search_cons_none true ds hl]
        | some child =>
          rw [search_cons_some false ds hl, search_cons_some true ds hl]
  | cons c cs ih =>
    obtain ⟨ch, e⟩ := t
    cases hl : lookupChild ch c with
    | none => rw [deleteRec_cons_none e cs hl]
    | some child =>
      by_cases hp : (child.deleteRec cs).2 = true
      · rw [deleteRec_cons_prune e cs hl hp]
        cases u with
        | nil => rw [search_nil, search_nil]
        | cons d ds =>
          by_cases hdc : d = c
          · subst hdc
            have hds : ds ≠ cs := by intro hh; exact h (by rw [hh])
            rw [search_cons_none e ds (lookupChild_eraseChild_self ch d),
              search_cons_some e ds hl]
            have h1 : (child.deleteRec cs).1.search ds = child.search ds :=
              ih child hds
            rw [deleteRec_prune child cs hp, search_empty_root] at h1
            exact h1
          · have hne : c ≠ d := fun hh => hdc hh.symm
            cases hld : lookupChild ch d with
            | none =>
              rw [search_cons_none e ds
                  ((lookupChild_eraseChild_ne ch hne).trans hld),
                search_cons_none e ds hld]
            | some child2 =>
              rw [search_cons_some e ds
                  ((lookupChild_eraseChild_ne ch hne).trans hld),
                search_cons_some e ds hld]
      · rw [Bool.not_eq_true] at hp
        rw [deleteRec_cons_keep e cs hl hp]
        cases u with
        | nil => rw [search_nil, search_nil]
        | cons d ds =>
          by_cases hdc : d = c
          · subst hdc
            have hds : ds ≠ cs := by intro hh; exact h (by rw [hh])
            rw [search_cons_some e ds (lookupChild_updateChild_self ch d _),
              ih child hds, search_cons_some e ds hl]
          · have hne : c ≠ d := fun hh => hdc hh.symm
            cases hld : lookupChild ch d with
            | none =>
              rw [search_cons_none e ds
                  ((lookupChild_updateChild_ne ch _ hne).trans hld),
                search_cons_none e ds hld]
            | some child2 =>
              rw [search_cons_some e ds
                  ((lookupChild_updateChild_ne ch _ hne).trans hld),
                search_cons_some e ds hld]

/-- Searching a trie built by a fold of inserts. -/
theorem search_buildFold (ws : List (List Char)) (t : GTrie) (u : List Char) :
    (ws.foldl GTrie.insertW t).search u = (t.search u || decide (u ∈ ws)) := by
  induction ws generalizing t with
  | nil => simp
  | cons w ws' ih =>
    rw [List.foldl_cons, ih]
    by_cases huw : u = w
    · subst huw
      simp [search_insert_self]
    · rw [search_insert_ne t huw]
      simp [huw]

/-- C2. Deleting a previously inserted word makes its search false while
every other inserted word — including longer words extending the deleted
one — still searches true. -/
theorem trie_delete_search (ws : List (List Char)) (w : List Char)
    (hw : w ∈ ws) :
    ((buildTrie ws).deleteRec w).1.search w = false ∧
    ∀ u ∈ ws, u ≠ w → ((buildTrie ws).deleteRec w).1.search u = true := by
  refine ⟨search_deleteRec_self _ w, ?_⟩
  intro u hu hne
  rw [search_deleteRec_ne _ hne, buildTrie, search_buildFold]
  simp [hu]

/-- C2 witness: insert `"a"` and `"ab"`, delete `"a"`; `"a"` is gone and
the longer word `"ab"` survives. -/
theorem trie_delete_search_witness :
    ((buildTrie [['a'], ['a','b']]).deleteRec ['a']).1.search ['a'] = false ∧
    ∀ u ∈ [['a'], ['a','b']], u ≠ ['a'] →
      ((buildTrie [['a'], ['a','b']]).deleteRec ['a']).1.search u = true :=
  trie_delete_search [['a'], ['a','b']] ['a'] (by simp)

/-- C3 counterexample: in the trie holding `"a"` and `"b"`, the word
`"a"` is stored (`Search` returns true) yet `Delete("a")` returns false
— the boolean is the internal prune flag, not a found/ok flag. -/
theorem trie_delete_found_returns_false_counterexample :
    (buildTrie [['a'], ['b']]).search ['a'] = true ∧
    ((buildTrie [['a'], ['b']]).deleteRec ['a']).2 = false ∧
    ((buildTrie [['a'], ['b']]).deleteRec ['a']).1.search ['a'] = false := by
  refine ⟨by decide, by decide, by decide⟩

/-- C3 amended. `Delete` does return false whenever the word is absent;
but the boolean does not report deletion success — it can be false even
when the word was present and was removed. -/
theorem trie_delete_absent_returns_false (t : GTrie) (w : List Char)
    (h : t.search w = false) : (t.deleteRec w).2 = false := by
  induction w generalizing t with
  | nil =>
    obtain ⟨ch, e⟩ := t
    rw [search_nil] at h
    subst h
    rfl
  | cons c cs ih =>
    obtain ⟨ch, e⟩ := t
    cases hl : lookupChild ch c with
    | none => rw [deleteRec_cons_none e cs hl]
    | some child =>
      rw [search_cons_some e cs hl] at h
      rw [deleteRec_cons_keep e cs hl (ih child h)]

/-- C3 amended witness: deleting the absent word `"b"` from the trie
holding only `"a"` returns false. -/
theorem trie_delete_absent_returns_false_witness :
    (buildTrie [['a']]).search ['b'] = false ∧
    ((buildTrie [['a']]).deleteRec ['b']).2 = false :=
  ⟨by decide, trie_delete_absent_returns_false _ ['b'] (by decide)⟩

/-! ## Graph (`graph.go`)

`map[T][]T` becomes an association list with `Nat` node identities; the
`directed` flag is carried in the structure.  Where Go ranges over map
keys, the model folds over the association list's keys in order — a
determinization of Go's unspecified map iteration order. -/

structure GraphM where
  adjacency : List (Nat × List Nat)
  directed : Bool

def NewGraph (directed : Bool) : GraphM :=
  { adjacency := [], directed := directed }

/-- Association-list lookup, modelling `m[k]` with its `ok` flag. -/
def lookupAdj {β : Type} : List (Nat × β) → Nat → Option β
  | [], _ => none
  | (k, v) :: rest, n => if k = n then some v else lookupAdj rest n

/-- Association-list assignment, modelling `m[k] = v`. -/
def setAdj {β : Type} : List (Nat × β) → Nat → β → List (Nat × β)
  | [], n, v => [(n, v)]
  | (k, w) :: rest, n, v =>
    if k = n then (n, v) :: rest else (k, w) :: setAdj rest n v

/-- Association-list key removal, modelling `delete(m, k)`. -/
def delAdj {β : Type} : List (Nat × β) → Nat → List (Nat × β)
  | [], _ => []
  | (k, w) :: rest, n =>
    if k = n then delAdj rest n else (k, w) :: delAdj rest n

def GraphM.HasNode (g : GraphM) (n : Nat) : Bool :=
  (lookupAdj g.adjacency n).isSome

def GraphM.AddNode (g : GraphM) (n : Nat) : GraphM :=
  if g.HasNode n then g
  else { g with adjacency := g.adjacency ++ [(n, [])] }

def GraphM.GetNeighbors (g : GraphM) (n : Nat) : List Nat :=
  (lookupAdj g.adjacency n).getD []

def GraphM.AddEdge (g : GraphM) (u v : Nat) : GraphM :=
  let g1 := (g.AddNode u).AddNode v
  let g2 := { g1 with adjacency := setAdj g1.adjacency u (g1.GetNeighbors u ++ [v]) }
  if !g.directed then
    { g2 with adjacency := setAdj g2.adjacency v (g2.GetNeighbors v ++ [u]) }
  else g2

/-- The first-match-then-break removal loop inside `RemoveEdge`. -/
def removeFirst : List Nat → Nat → List Nat
  | [], _ => []
  | x :: rest, v => if x = v then rest else x :: removeFirst rest v

def GraphM.RemoveEdge (g : GraphM) (u v : Nat) : GraphM :=
  let g1 := match lookupAdj g.adjacency u with
    | none => g
    | some ns => { g with adjacency := setAdj g.adjacency u (removeFirst ns v) }
  if !g.directed then
    match lookupAdj g1.adjacency v with
    | none => g1
    | some ns => { g1 with adjacency := setAdj g1.adjacency v (removeFirst ns u) }
  else g1

/-- `RemoveNode`: one `RemoveEdge(from, node)` per key, then delete the
node's own entry. -/
def GraphM.RemoveNode (g : GraphM) (n : Nat) : GraphM :=
  let g1 := (g.adjacency.map Prod.fst).foldl (fun acc u => acc.RemoveEdge u n) g
  { g1 with adjacency := delAdj g1.adjacency n }

def GraphM.HasEdge (g : GraphM) (u v : Nat) : Bool :=
  match lookupAdj g.adjacency u with
  | none => false
  | some ns => ns.contains v

/-- C4. `RemoveNode` does NOT erase all parallel copies: after adding the
undirected edge `1–2` twice and removing node `2`, node `1`'s adjacency
list still contains the removed node, `HasEdge` symmetry is broken, and
yet `HasNode 2` is false.  (`RemoveEdge` removes only the first matching
occurrence, and `RemoveNode` calls it once per key.) -/
theorem graph_removeNode_leaves_parallel_edge :
    ((((NewGraph false).AddEdge 1 2).AddEdge 1 2).RemoveNode 2).HasEdge 1 2 = true ∧
    ((((NewGraph false).AddEdge 1 2).AddEdge 1 2).RemoveNode 2).HasEdge 2 1 = false ∧
    ((((NewGraph false).AddEdge 1 2).AddEdge 1 2).RemoveNode 2).HasNode 2 = false := by
  refine ⟨by decide, by decide, by decide⟩

/-! ### Set collaborator (`set.go`, Set part) and `Graph.Equals` -/

/-- `Set.Add` (map insertion: present keys are untouched). -/
def setAdd (s : List Nat) (x : Nat) : List Nat :=
  if s.contains x then s else s ++ [x]

/-- `NewSetFromSlice`. -/
def NewSetFromSliceN (l : List Nat) : List Nat := l.foldl setAdd []

/-- `Set.IsSubset`. -/
def setIsSubset (a b : List Nat) : Bool := a.all (fun x => b.contains x)

/-- `Set.Equals`: size equality then subset. -/
def setEquals (a b : List Nat) : Bool :=
  a.length == b.length && setIsSubset a b

/-- `Equals` from `graph.go`: directedness, key-count, then per-node
neighbor-list length and neighbor-set comparison. -/
def GraphM.Equals (g h : GraphM) : Bool :=
  g.directed == h.directed &&
  g.adjacency.length == h.adjacency.length &&
  g.adjacency.all (fun p =>
    match lookupAdj h.adjacency p.1 with
    | none => false
    | some ns' =>
      p.2.length == ns'.length &&
      setEquals (NewSetFromSliceN p.2) (NewSetFromSliceN ns'))

/-- C9 counterexample: two directed graphs with the same directedness,
identical node sets and equal per-node neighbor sets — differing only in
the multiplicity of the parallel edge `1→2` — compare as UNEQUAL,
because `Equals` also compares adjacency-list lengths. -/
theorem graph_equals_multiplicity_counterexample :
    ((NewGraph true).AddEdge 1 2).directed =
      (((NewGraph true).AddEdge 1 2).AddEdge 1 2).directed ∧
    setEquals
      (NewSetFromSliceN (((NewGraph true).AddEdge 1 2).adjacency.map Prod.fst))
      (NewSetFromSliceN ((((NewGraph true).AddEdge 1 2).AddEdge 1 2).adjacency.map Prod.fst)) = true ∧
    setEquals
      (NewSetFromSliceN (((NewGraph true).AddEdge 1 2).GetNeighbors 1))
      (NewSetFromSliceN ((((NewGraph true).AddEdge 1 2).AddEdge 1 2).GetNeighbors 1)) = true ∧
    setEquals
      (NewSetFromSliceN (((NewGraph true).AddEdge 1 2).GetNeighbors 2))
      (NewSetFromSliceN ((((NewGraph true).AddEdge 1 2).AddEdge 1 2).GetNeighbors 2)) = true ∧
    ((NewGraph true).AddEdge 1 2).Equals (((NewGraph true).AddEdge 1 2).AddEdge 1 2) = false := by
  refine ⟨rfl, by decide, by decide, by decide, by decide⟩

theorem mem_setAdd (s : List Nat) (x y : Nat) :
    y ∈ setAdd s x ↔ y ∈ s ∨ y = x := by
  rw [setAdd]
  by_cases h : s.contains x
  · rw [if_pos h]
    have hx : x ∈ s := by simpa using h
    constructor
    · exact fun hy => Or.inl hy
    · rintro (hy | rfl)
      · exact hy
      · exact hx
  · rw [if_neg h]
    simp

theorem mem_NewSetFromSliceN (l : List Nat) (y : Nat) :
    y ∈ NewSetFromSliceN l ↔ y ∈ l := by
  suffices hgen : ∀ acc : List Nat, y ∈ l.foldl setAdd acc ↔ y ∈ acc ∨ y ∈ l by
    rw [NewSetFromSliceN, hgen]
    simp
  induction l with
  | nil => intro acc; simp
  | cons a as ih =>
    intro acc
    rw [List.foldl_cons, ih, mem_setAdd]
    simp only [List.mem_cons]
    tauto

theorem nodup_setAdd (s : List Nat) (x : Nat) (h : s.Nodup) :
    (setAdd s x).Nodup := by
  rw [setAdd]
  by_cases hc : s.contains x
  · rw [if_pos hc]; exact h
  · rw [if_neg hc]
    have hx : x ∉ s := by simpa using hc
    simpa [List.nodup_append] using ⟨h, hx⟩

theorem nodup_NewSetFromSliceN (l : List Nat) : (NewSetFromSliceN l).Nodup := by
  suffices hgen : ∀ acc : List Nat, acc.Nodup → (l.foldl setAdd acc).Nodup from
    hgen [] List.nodup_nil
  induction l with
  | nil => intro acc h; exact h
  | cons a as ih =>
    intro acc h
    rw [List.foldl_cons]
    exact ih _ (nodup_setAdd acc a h)

theorem setEquals_iff (a b : List Nat) :
    setEquals (NewSetFromSliceN a) (NewSetFromSliceN b) = true ↔
      ∀ x, x ∈ a ↔ x ∈ b := by
  rw [setEquals, Bool.and_eq_true, beq_iff_eq, setIsSubset, List.all_eq_true]
  constructor
  · rintro ⟨hlen, hsub⟩ x
    have hsub' : NewSetFromSliceN a ⊆ NewSetFromSliceN b := by
      intro y hy
      simpa using hsub y hy
    have hperm : (NewSetFromSliceN a).Perm (NewSetFromSliceN b) :=
      ((nodup_NewSetFromSliceN a).subperm hsub').perm_of_length_le (by omega)
    rw [← mem_NewSetFromSliceN a, ← mem_NewSetFromSliceN b]
    exact hperm.mem_iff
  · intro hmem
    have hiff : ∀ x, x ∈ NewSetFromSliceN a ↔ x ∈ NewSetFromSliceN b := by
      intro x
      rw [mem_NewSetFromSliceN, mem_NewSetFromSliceN]
      exact hmem x
    have hperm : (NewSetFromSliceN a).Perm (NewSetFromSliceN b) :=
      ((nodup_NewSetFromSliceN a).subperm (fun y hy => (hiff y).mp hy)).antisymm
        ((nodup_NewSetFromSliceN b).subperm (fun y hy => (hiff y).mpr hy))
    exact ⟨hperm.length_eq, fun x hx => by simpa using (hiff x).mp hx⟩

/-- C9 amended. `Equals` holds exactly when directedness matches, the
key counts match, and every node of the first graph appears in the
second with an adjacency list of the SAME length and the same neighbor
set — so parallel-edge multiplicity does affect the total per-node list
length (though not the per-neighbor distribution). -/
theorem graph_equals_iff (g h : GraphM) :
    g.Equals h = true ↔
      (g.directed = h.directed ∧
       g.adjacency.length = h.adjacency.length ∧
       ∀ n ns, (n, ns) ∈ g.adjacency →
         ∃ ns', lookupAdj h.adjacency n = some ns' ∧
           ns.length = ns'.length ∧ (∀ x, x ∈ ns ↔ x ∈ ns')) := by
  rw [GraphM.Equals, Bool.and_eq_true, Bool.and_eq_true, beq_iff_eq,
    beq_iff_eq, List.all_eq_true]
  constructor
  · rintro ⟨⟨hd, hlen⟩, hall⟩
    refine ⟨hd, hlen, ?_⟩
    intro n ns hmem
    have hp := hall (n, ns) hmem
    cases hl : lookupAdj h.adjacency n with
    | none => rw [hl] at hp; simp at hp
    | some ns' =>
      rw [hl] at hp
      simp only [Bool.and_eq_true, beq_iff_eq] at hp
      exact ⟨ns', rfl, hp.1, (setEquals_iff ns ns').mp hp.2⟩
  · rintro ⟨hd, hlen, hall⟩
    refine ⟨⟨hd, hlen⟩, ?_⟩
    intro p hmem
    obtain ⟨n, ns⟩ := p
    obtain ⟨ns', hl, hlen', hmems⟩ := hall n ns hmem
    rw [hl]
    simp only [Bool.and_eq_true, beq_iff_eq]
    exact ⟨hlen', (setEquals_iff ns ns').mpr hmems⟩

/-- C9 amended witness: two directed graphs with the edges `1→2`, `1→3`
added in opposite orders compare equal through the characterization. -/
theorem graph_equals_iff_witness :
    (((NewGraph true).AddEdge 1 2).AddEdge 1 3).Equals
      (((NewGraph true).AddEdge 1 3).AddEdge 1 2) = true :=
  (graph_equals_iff _ _).mpr (by
    refine ⟨rfl, rfl, ?_⟩
    intro n ns hmem
    have hmem' : (n, ns) ∈ [(1, [2, 3]), (2, ([] : List Nat)), (3, [])] := hmem
    simp only [List.mem_cons, List.not_mem_nil, or_false, Prod.mk.injEq]
      at hmem'
    rcases hmem' with ⟨rfl, rfl⟩ | ⟨rfl, rfl⟩ | ⟨rfl, rfl⟩
    · exact ⟨[3, 2], rfl, rfl, by intro x; simp; tauto⟩
    · exact ⟨[], rfl, rfl, by intro x; simp⟩
    · exact ⟨[], rfl, rfl, by intro x; simp⟩)

/-! ### Traversals (`graph.go`): BFS, DFS, ShortestPath

The Go loops terminate because the visited map only grows; the model
makes this explicit with a fuel argument large enough that it never
runs out (one unit per dequeue for BFS, one per recursion level for
DFS). -/

/-- Fuel bound: one start node plus one slot per adjacency entry and per
stored neighbor. -/
def traversalFuel (g : GraphM) : Nat :=
  1 + g.adjacency.length + (g.adjacency.map (fun p => p.2.length)).sum

/-- The `for len(queue) > 0` loop of `BFS`. -/
def bfsLoop (g : GraphM) : Nat → List Nat → List Nat → List Nat → List Nat
  | 0, _, _, result => result
  | _ + 1, [], _, result => result
  | fuel + 1, n :: queue, visited, result =>
    let st := (g.GetNeighbors n).foldl
      (fun (vq : List Nat × List Nat) nb =>
        if vq.1.contains nb then vq else (vq.1 ++ [nb], vq.2 ++ [nb]))
      (visited, queue)
    bfsLoop g fuel st.2 st.1 (result ++ [n])

def GraphM.BFS (g : GraphM) (start : Nat) : List Nat :=
  bfsLoop g (traversalFuel g) [start] [start] []

mutual
/-- `dfsRecursive` from `graph.go`: mark, append, recurse on unvisited
neighbors. -/
def dfsVisit (g : GraphM) : Nat → Nat → List Nat → List Nat →
    List Nat × List Nat
  | 0, _, visited, result => (visited, result)
  | fuel + 1, n, visited, result =>
    dfsNbrs g fuel (g.GetNeighbors n) (visited ++ [n]) (result ++ [n])
termination_by fuel _ _ _ => (fuel, 0)

/-- The neighbor loop of `dfsRecursive`. -/
def dfsNbrs (g : GraphM) : Nat → List Nat → List Nat → List Nat →
    List Nat × List Nat
  | _, [], visited, result => (visited, result)
  | fuel, nb :: rest, visited, result =>
    if visited.contains nb then dfsNbrs g fuel rest visited result
    else
      let p := dfsVisit g fuel nb visited result
      dfsNbrs g fuel rest p.1 p.2
termination_by fuel l _ _ => (fuel, l.length + 1)
end

def GraphM.DFS (g : GraphM) (start : Nat) : List Nat :=
  (dfsVisit g (traversalFuel g) start [] []).2

/-- The backwards parent-chain walk of `ShortestPath`; a missing parent
entry reads as Go's zero value. -/
def spReconstruct (parent : List (Nat × Nat)) (start : Nat) :
    Nat → Nat → List Nat → List Nat
  | 0, current, path => current :: path
  | fuel + 1, current, path =>
    if current = start then current :: path
    else spReconstruct parent start fuel ((lookupAdj parent current).getD 0)
      (current :: path)

/-- The BFS loop of `ShortestPath`, threading the parent map. -/
def spLoop (g : GraphM) (start stop : Nat) :
    Nat → List Nat → List Nat → List (Nat × Nat) → Option (List Nat)
  | 0, _, _, _ => none
  | _ + 1, [], _, _ => none
  | fuel + 1, n :: queue, visited, parent =>
    if n = stop then
      some (spReconstruct parent start (traversalFuel g) stop [])
    else
      let st := (g.GetNeighbors n).foldl
        (fun (vqp : List Nat × List Nat × List (Nat × Nat)) nb =>
          if vqp.1.contains nb then vqp
          else (vqp.1 ++ [nb], vqp.2.1 ++ [nb], setAdj vqp.2.2 nb n))
        (visited, queue, parent)
      spLoop g start stop fuel st.2.1 st.1 st.2.2

def GraphM.ShortestPath (g : GraphM) (start stop : Nat) : Option (List Nat) :=
  if !g.HasNode start || !g.HasNode stop then none
  else spLoop g start stop (traversalFuel g) [start] [start] []

theorem bfsLoop_empty_queue (g : GraphM) (fuel : Nat) (visited result : List Nat) :
    bfsLoop g fuel [] visited result = result := by
  cases fuel <;> rfl

theorem getNeighbors_of_missing (g : GraphM) (n : Nat)
    (h : g.HasNode n = false) : g.GetNeighbors n = [] := by
  rw [GraphM.HasNode] at h
  rw [GraphM.GetNeighbors]
  cases hl : lookupAdj g.adjacency n with
  | none => rfl
  | some ns => rw [hl] at h; simp at h

/-- C10. On a start node absent from the graph, `BFS` and `DFS` return
the one-element sequence `[start]`, while `ShortestPath` with any
missing endpoint signals failure with `(nil, false)`. -/
theorem graph_missing_node_behavior (g : GraphM) (s : Nat)
    (hs : g.HasNode s = false) :
    g.BFS s = [s] ∧ g.DFS s = [s] ∧
    (∀ a b : Nat, g.HasNode a = false ∨ g.HasNode b = false →
      g.ShortestPath a b = none) := by
  have hnb := getNeighbors_of_missing g s hs
  refine ⟨?_, ?_, ?_⟩
  · obtain ⟨m, hm⟩ : ∃ m, traversalFuel g = m + 1 :=
      ⟨g.adjacency.length + (g.adjacency.map (fun p => p.2.length)).sum, by
        rw [traversalFuel]; omega⟩
    rw [GraphM.BFS, hm, bfsLoop, hnb]
    exact bfsLoop_empty_queue g m [s] [s]
  · obtain ⟨m, hm⟩ : ∃ m, traversalFuel g = m + 1 :=
      ⟨g.adjacency.length + (g.adjacency.map (fun p => p.2.length)).sum, by
        rw [traversalFuel]; omega⟩
    rw [GraphM.DFS, hm, dfsVisit, hnb, dfsNbrs]
    rfl
  · intro a b hab
    rcases hab with h | h <;>
      simp [GraphM.ShortestPath, h]

/-- C10 witness on the undirected graph `{1–2}` with missing node `5`. -/
theorem graph_missing_node_behavior_witness :
    ((NewGraph false).AddEdge 1 2).BFS 5 = [5] ∧
    ((NewGraph false).AddEdge 1 2).DFS 5 = [5] ∧
    ((NewGraph false).AddEdge 1 2).ShortestPath 5 1 = none := by
  have h := graph_missing_node_behavior ((NewGraph false).AddEdge 1 2) 5
    (by decide)
  exact ⟨h.1, h.2.1, h.2.2 5 1 (Or.inl (by decide))⟩

/-! ### Cycle detection and topological sort (`graph.go`)

`HasCycle` runs the directed recursion-stack DFS; `TopologicalSort`
refuses undirected or cyclic graphs and otherwise reverses a DFS
post-order.  Both recursions terminate in Go because the visited map
grows; the model uses the same fuel pattern as the traversals, paired
with a lexicographic measure for the node/neighbor-list mutual
recursion. -/

mutual
/-- `hasCycleDFS` from `graph.go` (the per-node part): mark visited,
push onto the recursion stack, scan neighbors.  The recursion stack is
passed downward only: on every `false` return the Go code has restored
`recStack` to its state at entry. -/
def cycVisit (g : GraphM) : Nat → Nat → List Nat → List Nat → Bool × List Nat
  | 0, _, visited, _ => (false, visited)
  | fuel + 1, n, visited, recStack =>
    cycNbrs g fuel (g.GetNeighbors n) (visited ++ [n]) (n :: recStack)
termination_by fuel _ _ _ => (fuel, 0)

/-- The neighbor loop of `hasCycleDFS`: unvisited neighbors are
recursed into; visited neighbors on the recursion stack report a
cycle. -/
def cycNbrs (g : GraphM) : Nat → List Nat → List Nat → List Nat →
    Bool × List Nat
  | _, [], visited, _ => (false, visited)
  | fuel, nb :: rest, visited, recStack =>
    if visited.contains nb then
      if recStack.contains nb then (true, visited)
      else cycNbrs g fuel rest visited recStack
    else
      let p := cycVisit g fuel nb visited recStack
      if p.1 then (true, p.2) else cycNbrs g fuel rest p.2 recStack
termination_by fuel l _ _ => (fuel, l.length + 1)
end

/-- The `for node := range adjacency` loop of `HasCycle`. -/
def cycTop (g : GraphM) : List Nat → List Nat → Bool
  | [], _ => false
  | k :: ks, visited =>
    if visited.contains k then cycTop g ks visited
    else
      let p := cycVisit g (traversalFuel g) k visited []
      if p.1 then true else cycTop g ks p.2

def GraphM.HasCycle (g : GraphM) : Bool :=
  cycTop g (g.adjacency.map Prod.fst) []

mutual
/-- `topologicalSortDFS` from `graph.go`: visit neighbors first, then
append the node (post-order). -/
def topoVisit (g : GraphM) : Nat → Nat → List Nat → List Nat →
    List Nat × List Nat
  | 0, _, visited, result => (visited, result)
  | fuel + 1, n, visited, result =>
    let p := topoNbrs g fuel (g.GetNeighbors n) (visited ++ [n]) result
    (p.1, p.2 ++ [n])
termination_by fuel _ _ _ => (fuel, 0)

/-- The neighbor loop of `topologicalSortDFS`. -/
def topoNbrs (g : GraphM) : Nat → List Nat → List Nat → List Nat →
    List Nat × List Nat
  | _, [], visited, result => (visited, result)
  | fuel, nb :: rest, visited, result =>
    if visited.contains nb then topoNbrs g fuel rest visited result
    else
      let p := topoVisit g fuel nb visited result
      topoNbrs g fuel rest p.1 p.2
termination_by fuel l _ _ => (fuel, l.length + 1)
end

/-- The `for node := range adjacency` loop of `TopologicalSort`. -/
def topoTop (g : GraphM) : List Nat → List Nat → List Nat →
    List Nat × List Nat
  | [], visited, result => (visited, result)
  | k :: ks, visited, result =>
    if visited.contains k then topoTop g ks visited result
    else
      let p := topoVisit g (traversalFuel g) k visited result
      topoTop g ks p.1 p.2

/-- `TopologicalSort` from `graph.go`: `(nil, false)` on undirected or
cyclic graphs, otherwise the DFS post-order reversed. -/
def GraphM.TopologicalSort (g : GraphM) : Option (List Nat) :=
  if !g.directed then none
  else if g.HasCycle then none
  else some ((topoTop g (g.adjacency.map Prod.fst) [] []).2.reverse)

/-! Specification-side notions for C7. -/

/-- The node set: the adjacency map's keys. -/
def keys (g : GraphM) : List Nat := g.adjacency.map Prod.fst

/-- The edge relation of the model: `w` occurs in `u`'s adjacency list. -/
def EdgeR (g : GraphM) (u w : Nat) : Prop := w ∈ g.GetNeighbors u

/-- A graph is acyclic when no node reaches itself through one or more
edges. -/
def Acyclic (g : GraphM) : Prop := ∀ n, ¬ Relation.TransGen (EdgeR g) n n

theorem hasEdge_iff_edgeR (g : GraphM) (u w : Nat) :
    g.HasEdge u w = true ↔ EdgeR g u w := by
  rw [GraphM.HasEdge, EdgeR, GraphM.GetNeighbors]
  cases hl : lookupAdj g.adjacency u with
  | none => simp
  | some ns => simp

theorem lookupAdj_mem {β : Type} {l : List (Nat × β)} {n : Nat} {v : β}
    (h : lookupAdj l n = some v) : (n, v) ∈ l := by
  induction l with
  | nil => simp [lookupAdj] at h
  | cons p rest ih =>
    obtain ⟨k, w⟩ := p
    by_cases hk : k = n
    · subst hk
      rw [lookupAdj, if_pos rfl, Option.some_inj] at h
      subst h
      exact List.mem_cons_self _ _
    · rw [lookupAdj, if_neg hk] at h
      exact List.mem_cons_of_mem _ (ih h)

theorem edgeR_src_mem_keys {g : GraphM} {u w : Nat} (h : EdgeR g u w) :
    u ∈ keys g := by
  rw [EdgeR, GraphM.GetNeighbors] at h
  cases hl : lookupAdj g.adjacency u with
  | none => rw [hl] at h; simp at h
  | some ns =>
    exact List.mem_map_of_mem Prod.fst (lookupAdj_mem hl)

theorem edgeR_elim {g : GraphM} {u w : Nat} (h : EdgeR g u w) :
    ∃ ns, (u, ns) ∈ g.adjacency ∧ w ∈ ns := by
  rw [EdgeR, GraphM.GetNeighbors] at h
  cases hl : lookupAdj g.adjacency u with
  | none => rw [hl] at h; simp at h
  | some ns =>
    rw [hl] at h
    exact ⟨ns, lookupAdj_mem hl, h⟩

/-- Node-by-node closure check that implies the neighbor-closure
hypothesis (a decidable surrogate for concrete witnesses). -/
theorem closure_of_entries {g : GraphM}
    (h : ∀ p ∈ g.adjacency, ∀ w ∈ p.2, w ∈ keys g) :
    ∀ u w, EdgeR g u w → w ∈ keys g := by
  intro u w he
  obtain ⟨ns, hmem, hw⟩ := edgeR_elim he
  exact h (u, ns) hmem w hw

theorem transGen_mono_rank {g : GraphM} {f : Nat → Nat}
    (hf : ∀ u w, EdgeR g u w → f u < f w) {a b : Nat}
    (h : Relation.TransGen (EdgeR g) a b) : f a < f b := by
  induction h with
  | single he => exact hf _ _ he
  | tail _ he ih => exact lt_trans ih (hf _ _ he)

/-- A strictly increasing rank function certifies acyclicity. -/
theorem acyclic_of_rank {g : GraphM} (f : Nat → Nat)
    (hf : ∀ p ∈ g.adjacency, ∀ w ∈ p.2, f p.1 < f w) : Acyclic g := by
  intro n hcyc
  have hf' : ∀ u w, EdgeR g u w → f u < f w := by
    intro u w he
    obtain ⟨ns, hmem, hw⟩ := edgeR_elim he
    exact hf (u, ns) hmem w hw
  exact absurd (transGen_mono_rank hf' hcyc) (lt_irrefl _)

/-- Number of keys not yet visited: the fuel measure. -/
def unvisitedCount (g : GraphM) (v : List Nat) : Nat :=
  ((keys g).filter (fun k => !v.contains k)).length

theorem filter_length_mono {p q : Nat → Bool} (l : List Nat)
    (h : ∀ x, p x = true → q x = true) :
    (l.filter p).length ≤ (l.filter q).length := by
  induction l with
  | nil => simp
  | cons a tl ih =>
    by_cases hp : p a = true
    · rw [List.filter_cons, if_pos hp, List.filter_cons, if_pos (h a hp)]
      simpa using ih
    · rw [List.filter_cons, if_neg hp, List.filter_cons]
      by_cases hq : q a = true
      · rw [if_pos hq]
        simp only [List.length_cons]
        omega
      · rw [if_neg hq]
        exact ih

theorem unvisitedCount_mono {g : GraphM} {v w : List Nat} (h : v ⊆ w) :
    unvisitedCount g w ≤ unvisitedCount g v := by
  refine filter_length_mono (keys g) ?_
  intro x hx
  simp only [Bool.not_eq_true'] at hx ⊢
  by_cases hm : x ∈ v
  · have : x ∈ w := h hm
    simp [this] at hx
  · simpa using hm

theorem filter_length_strict {p q : Nat → Bool} (l : List Nat) (n : Nat)
    (h : ∀ x, p x = true → q x = true) (hn : n ∈ l)
    (hq : q n = true) (hp : p n = false) :
    (l.filter p).length < (l.filter q).length := by
  induction l with
  | nil => simp at hn
  | cons a tl ih =>
    rcases List.mem_cons.mp hn with rfl | hn'
    · rw [List.filter_cons, List.filter_cons, hp, hq]
      simp only [Bool.false_eq_true, if_false, if_true, List.length_cons]
      have := filter_length_mono tl h
      omega
    · by_cases hpa : p a = true
      · rw [List.filter_cons, if_pos hpa, List.filter_cons, if_pos (h a hpa)]
        simp only [List.length_cons]
        exact Nat.succ_lt_succ (ih hn')
      · rw [List.filter_cons, if_neg hpa, List.filter_cons]
        by_cases hqa : q a = true
        · rw [if_pos hqa]
          have := ih hn'
          simp only [List.length_cons]
          omega
        · rw [if_neg hqa]
          exact ih hn'

theorem unvisitedCount_strict {g : GraphM} {v : List Nat} {n : Nat}
    (hk : n ∈ keys g) (hv : n ∉ v) :
    unvisitedCount g (v ++ [n]) < unvisitedCount g v := by
  refine filter_length_strict (keys g) n ?_ hk ?_ ?_
  · intro x hx
    simp at hx ⊢
    tauto
  · simpa using hv
  · simp

theorem unvisitedCount_lt_fuel (g : GraphM) (v : List Nat) :
    unvisitedCount g v < traversalFuel g := by
  have h1 : ((keys g).filter (fun k => !v.contains k)).length ≤ (keys g).length :=
    List.length_filter_le _ _
  have h2 : (keys g).length = g.adjacency.length := by
    rw [keys, List.length_map]
  rw [unvisitedCount, traversalFuel]
  omega

/-- On an acyclic graph whose neighbors stay inside the key set, the
recursion-stack DFS never reports a cycle, and the visited set only
grows.  Joint statement for the mutual recursion, by induction on
fuel. -/
theorem cyc_spec (g : GraphM) (hA : Acyclic g)
    (hC : ∀ u w, EdgeR g u w → w ∈ keys g) :
    ∀ fuel : Nat,
      (∀ n v rs, unvisitedCount g v < fuel → n ∈ keys g → n ∉ v →
        (∀ x ∈ rs, Relation.TransGen (EdgeR g) x n) →
        (cycVisit g fuel n v rs).1 = false ∧
          v ⊆ (cycVisit g fuel n v rs).2) ∧
      (∀ ns v rs, unvisitedCount g v < fuel →
        (∀ nb ∈ ns, nb ∈ keys g) →
        (∀ x ∈ rs, ∀ nb ∈ ns, Relation.TransGen (EdgeR g) x nb) →
        (cycNbrs g fuel ns v rs).1 = false ∧
          v ⊆ (cycNbrs g fuel ns v rs).2) := by
  intro fuel
  induction fuel with
  | zero =>
    constructor
    · intro n v rs hf
      exact absurd hf (by omega)
    · intro ns v rs hf
      exact absurd hf (by omega)
  | succ f ih =>
    have hvisit : ∀ n v rs, unvisitedCount g v < f + 1 → n ∈ keys g → n ∉ v →
        (∀ x ∈ rs, Relation.TransGen (EdgeR g) x n) →
        (cycVisit g (f + 1) n v rs).1 = false ∧
          v ⊆ (cycVisit g (f + 1) n v rs).2 := by
      intro n v rs hf hk hnv hpath
      have hstrict := unvisitedCount_strict (g := g) hk hnv
      have hlt : unvisitedCount g (v ++ [n]) < f := by omega
      have hres := ih.2 (g.GetNeighbors n) (v ++ [n]) (n :: rs) hlt
        (fun nb hnb => hC n nb hnb)
        (by
          intro x hx nb hnb
          rcases List.mem_cons.mp hx with rfl | hx'
          · exact Relation.TransGen.single hnb
          · exact (hpath x hx').tail hnb)
      simp only [cycVisit]
      exact ⟨hres.1, fun x hx => hres.2 (by simp [hx])⟩
    refine ⟨hvisit, ?_⟩
    intro ns
    induction ns with
    | nil =>
      intro v rs hf hns hpath
      simp [cycNbrs]
    | cons nb rest ihl =>
      intro v rs hf hns hpath
      simp only [cycNbrs]
      by_cases hvis : v.contains nb = true
      · rw [if_pos hvis]
        by_cases hrs : rs.contains nb = true
        · exfalso
          have hnb : nb ∈ rs := by simpa using hrs
          exact hA nb (hpath nb hnb nb (by simp))
        · rw [if_neg hrs]
          exact ihl v rs hf (fun x hx => hns x (by simp [hx]))
            (fun x hx nb' hnb' => hpath x hx nb' (by simp [hnb']))
      · rw [if_neg hvis]
        have hnbv : nb ∉ v := by simpa using hvis
        have hp := hvisit nb v rs hf (hns nb (by simp)) hnbv
          (fun x hx => hpath x hx nb (by simp))
        rw [if_neg (by simp [hp.1])]
        have htail := ihl (cycVisit g (f + 1) nb v rs).2 rs
          (lt_of_le_of_lt (unvisitedCount_mono hp.2) hf)
          (fun x hx => hns x (by simp [hx]))
          (fun x hx nb' hnb' => hpath x hx nb' (by simp [hnb']))
        exact ⟨htail.1, subset_trans hp.2 htail.2⟩

/-- The key loop of `HasCycle` reports no cycle on an acyclic graph. -/
theorem cycTop_false (g : GraphM) (hA : Acyclic g)
    (hC : ∀ u w, EdgeR g u w → w ∈ keys g) :
    ∀ ks, (∀ k ∈ ks, k ∈ keys g) → ∀ v, cycTop g ks v = false := by
  intro ks
  induction ks with
  | nil => intro _ v; rfl
  | cons k ks ihk =>
    intro hks v
    simp only [cycTop]
    by_cases hvis : v.contains k = true
    · rw [if_pos hvis]
      exact ihk (fun x hx => hks x (by simp [hx])) v
    · rw [if_neg hvis]
      have hkv : k ∉ v := by simpa using hvis
      have hp := (cyc_spec g hA hC (traversalFuel g)).1 k v []
        (unvisitedCount_lt_fuel g v) (hks k (by simp)) hkv (by simp)
      rw [if_neg (by simp [hp.1])]
      exact ihk (fun x hx => hks x (by simp [hx])) _

/-- `HasCycle` is false on every acyclic graph with neighbor closure. -/
theorem hasCycle_false_of_acyclic (g : GraphM) (hA : Acyclic g)
    (hC : ∀ u w, EdgeR g u w → w ∈ keys g) : g.HasCycle = false :=
  cycTop_false g hA hC (g.adjacency.map Prod.fst) (fun k hk => hk) []

/-- Invariant carried into the post-order DFS: the result list holds
finished nodes (visited, duplicate-free, no forward edges among them,
successor-closed), and every visited-but-unfinished node lies on the
current call stack `S`. -/
structure TopoPre (g : GraphM) (v r S : List Nat) : Prop where
  rv : ∀ x ∈ r, x ∈ v
  nd : r.Nodup
  pw : r.Pairwise (fun a b => ¬ EdgeR g a b)
  closed : ∀ x ∈ r, ∀ y, EdgeR g x y → y ∈ r
  gray : ∀ x ∈ v, x ∉ r → x ∈ S

/-- What one DFS call guarantees about the new visited set `v'` and the
new post-order result `r'`. -/
structure TopoPost (g : GraphM) (v r v' r' : List Nat) : Prop where
  vsub : v ⊆ v'
  rpre : r <+: r'
  rv : ∀ x ∈ r', x ∈ v'
  nd : r'.Nodup
  pw : r'.Pairwise (fun a b => ¬ EdgeR g a b)
  closed : ∀ x ∈ r', ∀ y, EdgeR g x y → y ∈ r'
  vin : ∀ x ∈ v', x ∈ v ∨ x ∈ r'
  rnew : ∀ x ∈ r', x ∈ r ∨ x ∉ v
  vkeys : ∀ x ∈ v', x ∈ v ∨ x ∈ keys g

theorem TopoPost.comp {g : GraphM} {v r v₁ r₁ v' r' : List Nat}
    (h1 : TopoPost g v r v₁ r₁) (h2 : TopoPost g v₁ r₁ v' r') :
    TopoPost g v r v' r' where
  vsub := subset_trans h1.vsub h2.vsub
  rpre := h1.rpre.trans h2.rpre
  rv := h2.rv
  nd := h2.nd
  pw := h2.pw
  closed := h2.closed
  vin := by
    intro x hx
    rcases h2.vin x hx with hx1 | hx1
    · rcases h1.vin x hx1 with hx2 | hx2
      · exact Or.inl hx2
      · exact Or.inr (h2.rpre.sublist.subset hx2)
    · exact Or.inr hx1
  rnew := by
    intro x hx
    rcases h2.rnew x hx with hx1 | hx1
    · rcases h1.rnew x hx1 with hx2 | hx2
      · exact Or.inl hx2
      · exact Or.inr hx2
    · exact Or.inr (fun hxv => hx1 (h1.vsub hxv))
  vkeys := by
    intro x hx
    rcases h2.vkeys x hx with hx1 | hx1
    · exact h1.vkeys x hx1
    · exact Or.inr hx1

theorem topoPost_refl {g : GraphM} {v r S : List Nat} (hpre : TopoPre g v r S) :
    TopoPost g v r v r where
  vsub := fun _ hx => hx
  rpre := List.prefix_rfl
  rv := hpre.rv
  nd := hpre.nd
  pw := hpre.pw
  closed := hpre.closed
  vin := fun x hx => Or.inl hx
  rnew := fun x hx => Or.inl hx
  vkeys := fun x hx => Or.inl hx

/-- Joint specification of `topologicalSortDFS` on an acyclic graph:
the result stays duplicate-free, successor-closed and free of forward
edges, the visited node is appended, and every scanned neighbor ends up
finished. -/
theorem topo_spec (g : GraphM) (hA : Acyclic g)
    (hC : ∀ u w, EdgeR g u w → w ∈ keys g) :
    ∀ fuel : Nat,
      (∀ n v r S, unvisitedCount g v < fuel → n ∈ keys g → n ∉ v →
        TopoPre g v r S →
        (∀ x ∈ S, Relation.TransGen (EdgeR g) x n) →
        TopoPost g v r (topoVisit g fuel n v r).1 (topoVisit g fuel n v r).2 ∧
          n ∈ (topoVisit g fuel n v r).2) ∧
      (∀ ns v r S, unvisitedCount g v < fuel →
        (∀ nb ∈ ns, nb ∈ keys g) →
        TopoPre g v r S →
        (∀ x ∈ S, ∀ nb ∈ ns, Relation.TransGen (EdgeR g) x nb) →
        TopoPost g v r (topoNbrs g fuel ns v r).1 (topoNbrs g fuel ns v r).2 ∧
          ∀ nb ∈ ns, nb ∈ (topoNbrs g fuel ns v r).2) := by
  intro fuel
  induction fuel with
  | zero =>
    constructor
    · intro n v r S hf
      exact absurd hf (by omega)
    · intro ns v r S hf
      exact absurd hf (by omega)
  | succ f ih =>
    have hvisit : ∀ n v r S, unvisitedCount g v < f + 1 → n ∈ keys g → n ∉ v →
        TopoPre g v r S →
        (∀ x ∈ S, Relation.TransGen (EdgeR g) x n) →
        TopoPost g v r (topoVisit g (f + 1) n v r).1
          (topoVisit g (f + 1) n v r).2 ∧
          n ∈ (topoVisit g (f + 1) n v r).2 := by
      intro n v r S hf hk hnv hpre hpath
      have hstrict := unvisitedCount_strict (g := g) hk hnv
      have hlt : unvisitedCount g (v ++ [n]) < f := by omega
      have hpre' : TopoPre g (v ++ [n]) r (n :: S) :=
        { rv := fun x hx => by simp [hpre.rv x hx]
          nd := hpre.nd
          pw := hpre.pw
          closed := hpre.closed
          gray := by
            intro x hx hxr
            rcases List.mem_append.mp hx with hx' | hx'
            · exact List.mem_cons_of_mem _ (hpre.gray x hx' hxr)
            · rw [List.mem_singleton] at hx'
              exact hx' ▸ List.mem_cons_self _ _ }
      have hres := ih.2 (g.GetNeighbors n) (v ++ [n]) r (n :: S) hlt
        (fun nb hnb => hC n nb hnb) hpre'
        (by
          intro x hx nb hnb
          rcases List.mem_cons.mp hx with rfl | hx'
          · exact Relation.TransGen.single hnb
          · exact (hpath x hx').tail hnb)
      have heq : topoVisit g (f + 1) n v r =
          ((topoNbrs g f (g.GetNeighbors n) (v ++ [n]) r).1,
           (topoNbrs g f (g.GetNeighbors n) (v ++ [n]) r).2 ++ [n]) := by
        simp only [topoVisit]
      rw [heq]
      obtain ⟨hP, hD9⟩ := hres
      have hn_notin : n ∉ (topoNbrs g f (g.GetNeighbors n) (v ++ [n]) r).2 := by
        intro hmem
        rcases hP.rnew n hmem with hr | hnv'
        · exact hnv (hpre.rv n hr)
        · exact hnv' (by simp)
      refine ⟨?_, by simp⟩
      refine ⟨?_, ?_, ?_, ?_, ?_, ?_, ?_, ?_, ?_⟩
      · exact fun x hx => hP.vsub (by simp [hx])
      · exact hP.rpre.trans (List.prefix_append _ _)
      · intro x hx
        rcases List.mem_append.mp hx with hx' | hx'
        · exact hP.rv x hx'
        · rw [List.mem_singleton] at hx'
          subst hx'
          exact hP.vsub (by simp)
      · rw [List.nodup_append]
        refine ⟨hP.nd, by simp, ?_⟩
        intro a ha
        simp only [List.mem_singleton]
        intro han
        exact hn_notin (han ▸ ha)
      · rw [List.pairwise_append]
        refine ⟨hP.pw, by simp, ?_⟩
        intro a ha b hb
        rw [List.mem_singleton] at hb
        subst hb
        intro hE
        exact hn_notin (hP.closed a ha b hE)
      · intro x hx y hE
        rcases List.mem_append.mp hx with hx' | hx'
        · exact List.mem_append_left _ (hP.closed x hx' y hE)
        · rw [List.mem_singleton] at hx'
          subst hx'
          exact List.mem_append_left _ (hD9 y hE)
      · intro x hx
        rcases hP.vin x hx with hx' | hx'
        · rcases List.mem_append.mp hx' with hx'' | hx''
          · exact Or.inl hx''
          · rw [List.mem_singleton] at hx''
            exact Or.inr (by simp [hx''])
        · exact Or.inr (List.mem_append_left _ hx')
      · intro x hx
        rcases List.mem_append.mp hx with hx' | hx'
        · rcases hP.rnew x hx' with hx'' | hx''
          · exact Or.inl hx''
          · exact Or.inr (fun hxv => hx'' (by simp [hxv]))
        · rw [List.mem_singleton] at hx'
          subst hx'
          exact Or.inr hnv
      · intro x hx
        rcases hP.vkeys x hx with hx' | hx'
        · rcases List.mem_append.mp hx' with hx'' | hx''
          · exact Or.inl hx''
          · rw [List.mem_singleton] at hx''
            subst hx''
            exact Or.inr hk
        · exact Or.inr hx'
    refine ⟨hvisit, ?_⟩
    intro ns
    induction ns with
    | nil =>
      intro v r S hf hns hpre hpath
      have heq : topoNbrs g (f + 1) [] v r = (v, r) := by
        simp only [topoNbrs]
      rw [heq]
      constructor
      · exact topoPost_refl hpre
      · intro nb hnb
        simp at hnb
    | cons nb rest ihl =>
      intro v r S hf hns hpre hpath
      by_cases hvis : v.contains nb = true
      · have heq : topoNbrs g (f + 1) (nb :: rest) v r =
            topoNbrs g (f + 1) rest v r := by
          simp only [topoNbrs, hvis, if_true]
        rw [heq]
        have hnbv : nb ∈ v := by simpa using hvis
        by_cases hnbr : nb ∈ r
        · have hres := ihl v r S hf (fun x hx => hns x (by simp [hx])) hpre
            (fun x hx nb' hnb' => hpath x hx nb' (by simp [hnb']))
          refine ⟨hres.1, ?_⟩
          intro nb' hnb'
          rcases List.mem_cons.mp hnb' with rfl | hnb''
          · exact hres.1.rpre.sublist.subset hnbr
          · exact hres.2 nb' hnb''
        · exfalso
          have hS := hpre.gray nb hnbv hnbr
          exact hA nb (hpath nb hS nb (by simp))
      · have hnbv : nb ∉ v := by simpa using hvis
        have hp := hvisit nb v r S hf (hns nb (by simp)) hnbv hpre
          (fun x hx => hpath x hx nb (by simp))
        have heq : topoNbrs g (f + 1) (nb :: rest) v r =
            topoNbrs g (f + 1) rest (topoVisit g (f + 1) nb v r).1
              (topoVisit g (f + 1) nb v r).2 := by
          simp only [topoNbrs, hvis, Bool.false_eq_true, if_false]
        rw [heq]
        obtain ⟨hP1, hnb1⟩ := hp
        have hpre2 : TopoPre g (topoVisit g (f + 1) nb v r).1
            (topoVisit g (f + 1) nb v r).2 S :=
          { rv := hP1.rv
            nd := hP1.nd
            pw := hP1.pw
            closed := hP1.closed
            gray := by
              intro x hx hxr
              rcases hP1.vin x hx with hx' | hx'
              · have hxnr : x ∉ r := fun hmem =>
                  hxr (hP1.rpre.sublist.subset hmem)
                exact hpre.gray x hx' hxnr
              · exact absurd hx' hxr }
        have hres := ihl (topoVisit g (f + 1) nb v r).1
          (topoVisit g (f + 1) nb v r).2 S
          (lt_of_le_of_lt (unvisitedCount_mono hP1.vsub) hf)
          (fun x hx => hns x (by simp [hx])) hpre2
          (fun x hx nb' hnb' => hpath x hx nb' (by simp [hnb']))
        refine ⟨hP1.comp hres.1, ?_⟩
        intro nb' hnb'
        rcases List.mem_cons.mp hnb' with rfl | hnb''
        · exact hres.1.rpre.sublist.subset hnb1
        · exact hres.2 nb' hnb''

/-- The key loop of `TopologicalSort` finishes every key with the DFS
invariants intact (the call stack is empty between keys, so visited and
finished coincide throughout). -/
theorem topoTop_spec (g : GraphM) (hA : Acyclic g)
    (hC : ∀ u w, EdgeR g u w → w ∈ keys g) :
    ∀ ks, (∀ k ∈ ks, k ∈ keys g) → ∀ v r, TopoPre g v r [] →
      TopoPost g v r (topoTop g ks v r).1 (topoTop g ks v r).2 ∧
        ∀ k ∈ ks, k ∈ (topoTop g ks v r).2 := by
  intro ks
  induction ks with
  | nil =>
    intro _ v r hpre
    exact ⟨topoPost_refl hpre, by simp⟩
  | cons k ks ihk =>
    intro hks v r hpre
    simp only [topoTop]
    by_cases hvis : v.contains k = true
    · rw [if_pos hvis]
      have hkv : k ∈ v := by simpa using hvis
      have hkr : k ∈ r := by
        by_contra hkr
        exact absurd (hpre.gray k hkv hkr) (by simp)
      have hres := ihk (fun x hx => hks x (by simp [hx])) v r hpre
      refine ⟨hres.1, ?_⟩
      intro k' hk'
      rcases List.mem_cons.mp hk' with rfl | hk''
      · exact hres.1.rpre.sublist.subset hkr
      · exact hres.2 k' hk''
    · rw [if_neg hvis]
      have hkv : k ∉ v := by simpa using hvis
      have hp := (topo_spec g hA hC (traversalFuel g)).1 k v r []
        (unvisitedCount_lt_fuel g v) (hks k (by simp)) hkv hpre (by simp)
      obtain ⟨hP1, hk1⟩ := hp
      have hpre2 : TopoPre g (topoVisit g (traversalFuel g) k v r).1
          (topoVisit g (traversalFuel g) k v r).2 [] :=
        { rv := hP1.rv
          nd := hP1.nd
          pw := hP1.pw
          closed := hP1.closed
          gray := by
            intro x hx hxr
            rcases hP1.vin x hx with hx' | hx'
            · have hxnr : x ∉ r := fun hmem =>
                hxr (hP1.rpre.sublist.subset hmem)
              exact hpre.gray x hx' hxnr
            · exact absurd hx' hxr }
      have hres := ihk (fun x hx => hks x (by simp [hx])) _ _ hpre2
      refine ⟨hP1.comp hres.1, ?_⟩
      intro k' hk'
      rcases List.mem_cons.mp hk' with rfl | hk''
      · exact hres.1.rpre.sublist.subset hk1
      · exact hres.2 k' hk''

/-- In a postorder run without forward edges, the target of an edge
appears before its source. -/
theorem pair_sublist_of_pairwise {g : GraphM} {l : List Nat} {u w : Nat}
    (hpw : l.Pairwise (fun a b => ¬ EdgeR g a b)) (hE : EdgeR g u w)
    (hu : u ∈ l) (hw : w ∈ l) (hne : u ≠ w) : [w, u].Sublist l := by
  induction l with
  | nil => simp at hu
  | cons a tl ih =>
    rw [List.pairwise_cons] at hpw
    by_cases haw : a = w
    · subst haw
      have hu' : u ∈ tl := by
        rcases List.mem_cons.mp hu with rfl | h
        · exact absurd rfl hne
        · exact h
      exact List.Sublist.cons₂ a (List.singleton_sublist.mpr hu')
    · by_cases hau : a = u
      · subst hau
        have hw' : w ∈ tl := by
          rcases List.mem_cons.mp hw with rfl | h
          · exact absurd rfl (fun hh => haw hh.symm)
          · exact h
        exact absurd hE (hpw.1 w hw')
      · have hu' : u ∈ tl := by
          rcases List.mem_cons.mp hu with rfl | h
          · exact absurd rfl (fun hh => hau hh.symm)
          · exact h
        have hw' : w ∈ tl := by
          rcases List.mem_cons.mp hw with rfl | h
          · exact absurd rfl (fun hh => haw hh.symm)
          · exact h
        exact (ih hpw.2 hu' hw').cons a

/-- C7. `TopologicalSort` returns `(nil, false)` on undirected graphs
and whenever `HasCycle()` is true; on a directed acyclic graph (whose
adjacency lists only reference existing nodes) it returns `ok = true`
together with a duplicate-free sequence containing exactly the graph's
nodes in which the source of every edge precedes its target. -/
theorem topological_sort_spec :
    (∀ g : GraphM, g.directed = false → g.TopologicalSort = none) ∧
    (∀ g : GraphM, g.HasCycle = true → g.TopologicalSort = none) ∧
    (∀ g : GraphM, g.directed = true →
      (∀ u w, EdgeR g u w → w ∈ keys g) → Acyclic g →
      ∃ l, g.TopologicalSort = some l ∧
        (∀ n, n ∈ l ↔ n ∈ keys g) ∧ l.Nodup ∧
        (∀ u w, g.HasEdge u w = true → [u, w].Sublist l)) := by
  refine ⟨?_, ?_, ?_⟩
  · intro g h
    simp [GraphM.TopologicalSort, h]
  · intro g h
    by_cases hd : g.directed <;> simp [GraphM.TopologicalSort, hd, h]
  · intro g hd hC hA
    have hnc := hasCycle_false_of_acyclic g hA hC
    have hpre0 : TopoPre g [] [] [] :=
      { rv := by simp
        nd := List.nodup_nil
        pw := List.Pairwise.nil
        closed := by simp
        gray := by simp }
    have htop := topoTop_spec g hA hC (g.adjacency.map Prod.fst)
      (fun k hk => hk) [] [] hpre0
    obtain ⟨hP, hall⟩ := htop
    have hsome : g.TopologicalSort =
        some ((topoTop g (g.adjacency.map Prod.fst) [] []).2.reverse) := by
      simp [GraphM.TopologicalSort, hd, hnc]
    refine ⟨_, hsome, ?_, ?_, ?_⟩
    · intro n
      rw [List.mem_reverse]
      constructor
      · intro hn
        rcases hP.vkeys n (hP.rv n hn) with h | h
        · simp at h
        · exact h
      · exact fun hn => hall n hn
    · exact List.nodup_reverse.mpr hP.nd
    · intro u w hE'
      have hE := (hasEdge_iff_edgeR g u w).mp hE'
      have hu : u ∈ (topoTop g (g.adjacency.map Prod.fst) [] []).2 :=
        hall u (edgeR_src_mem_keys hE)
      have hw : w ∈ (topoTop g (g.adjacency.map Prod.fst) [] []).2 :=
        hall w (hC u w hE)
      have hne : u ≠ w := by
        rintro rfl
        exact hA u (Relation.TransGen.single hE)
      have hsub := pair_sublist_of_pairwise hP.pw hE hu hw hne
      have hgoal : [u, w] = [w, u].reverse := rfl
      rw [hgoal]
      exact List.reverse_sublist.mpr hsub

/-- The spec's example DAG `{(1,2),(1,3),(2,4),(3,4)}`. -/
def dagExample : GraphM :=
  ((((NewGraph true).AddEdge 1 2).AddEdge 1 3).AddEdge 2 4).AddEdge 3 4

/-- C7 witness: the example DAG gets a valid topological order. -/
theorem topological_sort_spec_witness :
    ∃ l, dagExample.TopologicalSort = some l ∧
      (∀ n, n ∈ l ↔ n ∈ keys dagExample) ∧ l.Nodup ∧
      (∀ u w, dagExample.HasEdge u w = true → [u, w].Sublist l) :=
  topological_sort_spec.2.2 dagExample rfl
    (closure_of_entries (by decide))
    (acyclic_of_rank (fun n => n) (by decide))

end GoStl
